import Mathlib

/-
Verification of the Script Text Pipeline & Audio/Subtitle Synchronization
Engine of the auto-video-product repository.

Strings are modelled as `List Char` (Python `str`).  Python regular
expressions that occur in the sources are modelled by explicit scanners
with the same left-to-right, leftmost, non-overlapping semantics; the
equivalence of each scanner with the corresponding regex was established
by exhaustive differential testing before the scanner was fixed here.
Floating point durations are modelled as rationals.
-/

namespace S2P

/-- ASCII letter, the class [A-Za-z] (ASCII_LETTER_RE). -/
def asciiLetter (c : Char) : Bool := ('A' ≤ c ∧ c ≤ 'Z') ∨ ('a' ≤ c ∧ c ≤ 'z')

/-- ASCII digit, the class [0-9]. -/
def asciiDigit (c : Char) : Bool := '0' ≤ c ∧ c ≤ '9'

/-- The class [A-Za-z0-9] used by the word-boundary guards. -/
def asciiAlnum (c : Char) : Bool := asciiLetter c || asciiDigit c

/-- The characters Python's str-mode \s matches and str.strip() removes
(ASCII whitespace, the C1 whitespace controls, and the Unicode
White_Space code points). -/
def pyWs (c : Char) : Bool :=
  let n := c.toNat
  (9 ≤ n ∧ n ≤ 13) ∨ (28 ≤ n ∧ n ≤ 31) ∨ n = 32 ∨ n = 0x85 ∨ n = 0xa0 ∨
    n = 0x1680 ∨ (0x2000 ≤ n ∧ n ≤ 0x200a) ∨ n = 0x2028 ∨ n = 0x2029 ∨
    n = 0x202f ∨ n = 0x205f ∨ n = 0x3000

/-- The CJK_RANGE character class [぀-ヿ㐀-鿿] of the
script-generator modules. -/
def cjkChar (c : Char) : Bool :=
  let n := c.toNat
  (0x3040 ≤ n ∧ n ≤ 0x30ff) ∨ (0x3400 ≤ n ∧ n ≤ 0x9fff)

/-- The class [CJK_RANGE 0-9] of SPACE_BETWEEN_CJK. -/
def cjkNum (c : Char) : Bool := cjkChar c || asciiDigit c

/-- Python str.strip(): drop leading and trailing whitespace. -/
def stripWs (s : List Char) : List Char :=
  ((s.dropWhile pyWs).reverse.dropWhile pyWs).reverse

/-- re.sub(r"\s+", " ", text): replace every maximal whitespace run by a
single ASCII space. -/
def collapseWs : List Char → List Char
  | [] => []
  | c :: rest =>
    if pyWs c then ' ' :: collapseWs (rest.dropWhile pyWs)
    else c :: collapseWs rest
termination_by s => s.length
decreasing_by
  · simpa using Nat.lt_succ_of_le (List.dropWhile_sublist pyWs).length_le
  · simp

/-- Test of an optional character (absent counts as failing). -/
def optTest (p : Char → Bool) : Option Char → Bool
  | some c => p c
  | none => false

/-- PATTERN.sub("", s) for a pattern (?<=[pre])\s+(?=[post]): delete every
maximal whitespace run whose original neighbour on the left satisfies
`pre` and on the right satisfies `post` (SPACE_BETWEEN_CJK and friends).
The first argument is the character preceding the current scan position
in the original string, if any. -/
def delWsBetween (pre post : Char → Bool) : Option Char → List Char → List Char
  | _, [] => []
  | prev, c :: rest =>
    if pyWs c then
      let run := c :: rest.takeWhile pyWs
      let after := rest.dropWhile pyWs
      if optTest pre prev && optTest post after.head? then
        delWsBetween pre post (some c) after
      else
        run ++ delWsBetween pre post (some c) after
    else c :: delWsBetween pre post (some c) rest
termination_by _ s => s.length
decreasing_by
  · simpa using Nat.lt_succ_of_le (List.dropWhile_sublist pyWs).length_le
  · simpa using Nat.lt_succ_of_le (List.dropWhile_sublist pyWs).length_le
  · simp

/-- re.sub(r"\s+([X])", r"\1", s): delete every maximal whitespace run
that is immediately followed by a character satisfying `post`. -/
def delWsBefore (post : Char → Bool) : List Char → List Char
  | [] => []
  | c :: rest =>
    if pyWs c then
      let after := rest.dropWhile pyWs
      match after.head? with
      | some p =>
        if post p then p :: delWsBefore post after.tail
        else (c :: rest.takeWhile pyWs) ++ delWsBefore post after
      | none => c :: rest.takeWhile pyWs
    else c :: delWsBefore post rest
termination_by s => s.length
decreasing_by
  · have h1 := (List.dropWhile_sublist pyWs (l := rest)).length_le
    simp only [List.length_tail, List.length_cons]
    omega
  · simpa using Nat.lt_succ_of_le (List.dropWhile_sublist pyWs).length_le
  · simp

/-- re.sub(r"([X])\s+", r"\1", s): delete every maximal whitespace run
immediately preceded by a character satisfying `isOpen`. -/
def delWsAfterOpen (isOpen : Char → Bool) : List Char → List Char
  | [] => []
  | c :: rest =>
    if isOpen c && optTest pyWs rest.head? then
      c :: delWsAfterOpen isOpen (rest.dropWhile pyWs)
    else c :: delWsAfterOpen isOpen rest
termination_by s => s.length
decreasing_by
  · simpa using Nat.lt_succ_of_le (List.dropWhile_sublist pyWs).length_le
  · simp

/-- The closing-punctuation set of re.sub(r"\s+([、。！？…])", ...). -/
def closePunct (c : Char) : Bool := c ∈ ['、', '。', '！', '？', '…']

/-- The opening-bracket set of re.sub(r"([「『（【])\s+", ...). -/
def openBracketCh (c : Char) : Bool := c ∈ ['「', '『', '（', '【']

/-- The closing-bracket set of re.sub(r"\s+([」』）】])", ...). -/
def closeBracketCh (c : Char) : Bool := c ∈ ['」', '』', '）', '】']

/-- normalize_dialogue_text (script_generator.py lines 41-51, identical in
paper_script_generator.py lines 99-109): whitespace collapse and strip,
then removal of spaces inside CJK runs, between CJK and ASCII
alphanumerics in either order, before closing punctuation, after opening
brackets and before closing brackets. -/
def normalize_dialogue_text (t : List Char) : List Char :=
  if t = [] then []
  else
    let n := stripWs (collapseWs t)
    let n := delWsBetween cjkNum cjkNum none n
    let n := delWsBetween cjkChar asciiAlnum none n
    let n := delWsBetween asciiAlnum cjkChar none n
    let n := delWsBefore closePunct n
    let n := delWsAfterOpen openBracketCh n
    let n := delWsBefore closeBracketCh n
    n

/-- Python list.tail-safe substring containment test (used to decide
whether a closing tag occurs anywhere in the remainder). -/
def containsSub (pat : List Char) : List Char → Bool
  | [] => pat.isEmpty
  | c :: rest => pat.isPrefixOf (c :: rest) || containsSub pat rest

/-- wrap_text helper (video_editor.py lines 122-138): the `lines` list.
Characters are accumulated into `cur`; whenever the current line reaches
`maxChars` characters it is closed; a nonempty remainder becomes the
final line. -/
def wrapLines (maxChars : Nat) (cur : List Char) : List Char → List (List Char)
  | [] => if cur = [] then [] else [cur]
  | c :: rest =>
    let cur2 := cur ++ [c]
    if maxChars ≤ cur2.length then cur2 :: wrapLines maxChars [] rest
    else wrapLines maxChars cur2 rest

/-- "\n".join(lines). -/
def joinNL : List (List Char) → List Char
  | [] => []
  | [l] => l
  | l :: rest => l ++ '\n' :: joinNL rest

/-- wrap_text (video_editor.py lines 122-138): join the produced lines
with a newline. -/
def wrap_text (t : List Char) (maxChars : Nat) : List Char :=
  joinNL (wrapLines maxChars [] t)

/-- One dialogue line: a speaker and a text (the DialogueLine record). -/
structure DialogueLine where
  speaker : List Char
  text : List Char
deriving DecidableEq

/-- The clip_times loop of create_podcast_video (video_editor.py lines
36-44): running cumulative start time, each clip contributes
(start, duration, index). -/
def clipTimesGo (cur : ℚ) (i : Nat) : List ℚ → List (ℚ × ℚ × Nat)
  | [] => []
  | d :: rest => (cur, d, i) :: clipTimesGo (cur + d) (i + 1) rest

/-- clip_times computed from the ordered audio clip durations. -/
def clipTimes (durations : List ℚ) : List (ℚ × ℚ × Nat) :=
  clipTimesGo 0 0 durations

/-- The subtitle-pairing step of create_podcast_video (video_editor.py
lines 57-96): caption clips are built only when the subtitle count
equals the audio-clip count; each produced caption pairs dialogue index
`idx` with the interval (start, duration) of audio clip `idx`. -/
def textClipPairs (clips : List (ℚ × ℚ × Nat)) (subs : List DialogueLine) :
    List (Nat × ℚ × ℚ) :=
  if subs ≠ [] ∧ clips.length = subs.length then
    clips.filterMap (fun t => if t.2.2 < subs.length then some (t.2.2, t.1, t.2.1) else none)
  else []

/-- Paragraph separator "\n\n" of chunk_text. -/
def nl2 : List Char := ['\n', '\n']

/-- text.split("\n\n"): leftmost, non-overlapping split on the blank-line
separator; `cur` holds the reversed current piece. -/
def splitParasGo (cur : List Char) : List Char → List (List Char)
  | [] => [cur.reverse]
  | c :: rest =>
    if nl2.isPrefixOf (c :: rest) then
      cur.reverse :: splitParasGo [] ((c :: rest).drop 2)
    else splitParasGo (c :: cur) rest
termination_by s => s.length
decreasing_by
  · simp only [List.length_drop, List.length_cons]; omega
  · simp

/-- text.split("\n\n") of chunk_text. -/
def splitParas (t : List Char) : List (List Char) := splitParasGo [] t

/-- The hard-slice while loop of chunk_text (bsd_script_generator.py
lines 58-61): cut maxChars-sized pieces off the front while the current
chunk is too long; returns the pieces and the final remainder.  The
guard 0 < maxChars reflects that the Python loop does not terminate for
max_chars = 0. -/
def hardSlice (maxChars : Nat) (cur : List Char) : List (List Char) × List Char :=
  if 0 < maxChars ∧ maxChars < cur.length then
    let r := hardSlice maxChars (cur.drop maxChars)
    (cur.take maxChars :: r.1, r.2)
  else ([], cur)
termination_by cur.length
decreasing_by simp only [List.length_drop]; omega

/-- The paragraph-accumulation loop of chunk_text (bsd_script_generator.py
lines 49-61). -/
def chunkLoop (maxChars : Nat) (chunks : List (List Char)) (cur : List Char) :
    List (List Char) → List (List Char) × List Char
  | [] => (chunks, cur)
  | para :: rest =>
    if cur.length + para.length < maxChars then
      chunkLoop maxChars chunks (cur ++ para ++ nl2) rest
    else
      let chunks1 := if cur = [] then chunks else chunks ++ [cur]
      let r := hardSlice maxChars (para ++ nl2)
      chunkLoop maxChars (chunks1 ++ r.1) r.2 rest

/-- chunk_text (bsd_script_generator.py lines 36-65): paragraph-aware
chunking with a blind hard slice for oversized paragraphs. -/
def chunk_text (t : List Char) (maxChars : Nat) : List (List Char) :=
  if t.length ≤ maxChars then [t]
  else
    let r := chunkLoop maxChars [] [] (splitParas t)
    if r.2 = [] then r.1 else r.1 ++ [r.2]

/-- The bounded retry loop shared by generate_script
(script_generator.py lines 132-181) and generate_paper_script
(paper_script_generator.py lines 462-529): `call i` is the i-th attempt
of the model call followed by JSON extraction, which either produces a
script or fails; failures before the last attempt retry, the final
failure returns None, and a success returns immediately. -/
def retryGo (call : Nat → Except Unit α) (attempt maxRetries : Nat) : Option α :=
  if h : attempt < maxRetries then
    match call attempt with
    | .ok v => some v
    | .error _ => retryGo call (attempt + 1) maxRetries
  else none
termination_by maxRetries - attempt
decreasing_by omega

/-- generate_script with max_retries = 3. -/
def generate_script_retry (call : Nat → Except Unit α) : Option α :=
  retryGo call 0 3

/-- dialogue[idx]["text"] = newText (list mutation in
rewrite_english_dialogue, paper_script_generator.py line 314). -/
def setLineText : List DialogueLine → Nat → List Char → List DialogueLine
  | [], _, _ => []
  | l :: rest, 0, t => ⟨l.speaker, t⟩ :: rest
  | l :: rest, i + 1, t => l :: setLineText rest i t

/-- The reply-application loop of rewrite_english_dialogue
(paper_script_generator.py lines 308-314): each reply record carries an
optional index and optional text; a record is applied (its normalized
text overwrites the line at that index) exactly when the index is an
integer in range and the text is a string. -/
def rewrite_apply (d : List DialogueLine) :
    List (Option Int × Option (List Char)) → List DialogueLine
  | [] => d
  | item :: rest =>
    match item with
    | (some idx, some t) =>
      if 0 ≤ idx ∧ idx < (d.length : Int) then
        rewrite_apply (setLineText d idx.toNat (normalize_dialogue_text t)) rest
      else rewrite_apply d rest
    | _ => rewrite_apply d rest

/-- Whether a foreign-term reply record would be applied by
rewrite_english_dialogue against a dialogue of n lines: the index field
is an integer within [0, n) and the text field is a string. -/
def validRecord (n : Nat) (item : Option Int × Option (List Char)) : Bool :=
  match item with
  | (some idx, some _) => decide (0 ≤ idx ∧ idx < (n : Int))
  | _ => false

/-- Sentence-terminal characters of SENTENCE_SPLIT_RE
(?<=[。！？!?]). -/
def sentTerm (c : Char) : Bool := c ∈ ['。', '！', '？', '!', '?']

/-- SENTENCE_SPLIT_RE.split(text): cut after every sentence-terminal
character; `cur` holds the reversed current sentence. -/
def sentSplitGo (cur : List Char) : List Char → List (List Char)
  | [] => [cur.reverse]
  | c :: rest =>
    if sentTerm c then (c :: cur).reverse :: sentSplitGo [] rest
    else sentSplitGo (c :: cur) rest

/-- The sentence list of split_long_text (empty pieces filtered, as in
the source list comprehension). -/
def sentSplit (t : List Char) : List (List Char) :=
  (sentSplitGo [] t).filter (· ≠ [])

/-- SOFT_BREAK_CHARS (paper_script_generator.py line 29). -/
def softBreak (c : Char) : Bool :=
  c ∈ ['、', '，', ',', '・', '／', '/', ' ', '\u3000', '；', ';', ':', '：']

/-- Index of the last soft-break character in a list (the combined
rfind over SOFT_BREAK_CHARS). -/
def lastSoftIdxGo (i : Nat) (best : Option Nat) : List Char → Option Nat
  | [] => best
  | c :: rest => lastSoftIdxGo (i + 1) (if softBreak c then some i else best) rest

/-- The cut position of force_split: the rightmost soft break inside
remaining[0 : maxChars + 1], replaced by maxChars when it is absent or
at position 0. -/
def forceCut (remaining : List Char) (maxChars : Nat) : Nat :=
  match lastSoftIdxGo 0 none (remaining.take (maxChars + 1)) with
  | some i => if 0 < i then i else maxChars
  | none => maxChars

/-- force_split (paper_script_generator.py lines 205-222): repeatedly
cut at the rightmost in-bound soft break (or hard-cut at the bound),
strip every piece, and keep nonempty pieces.  The guard 0 < maxChars
reflects that the Python loop does not terminate for max_chars = 0;
split_long_text only calls it with a positive bound. -/
def forceSplitGo (maxChars : Nat) (remaining : List Char) : List (List Char) :=
  if h : 0 < maxChars ∧ maxChars < remaining.length then
    (if stripWs (remaining.take (forceCut remaining maxChars)) = [] then []
      else [stripWs (remaining.take (forceCut remaining maxChars))]) ++
      forceSplitGo maxChars (stripWs (remaining.drop (forceCut remaining maxChars)))
  else if remaining = [] then [] else [remaining]
termination_by remaining.length
decreasing_by
  have h1 : (stripWs (remaining.drop (forceCut remaining maxChars))).length ≤
      (remaining.drop (forceCut remaining maxChars)).length := by
    unfold stripWs
    have g1 := (List.dropWhile_sublist pyWs (l := remaining.drop (forceCut remaining maxChars))).length_le
    have g2 := (List.dropWhile_sublist pyWs
      (l := (List.dropWhile pyWs (remaining.drop (forceCut remaining maxChars))).reverse)).length_le
    simp only [List.length_reverse] at g2 ⊢
    omega
  have h2 : 0 < forceCut remaining maxChars := by
    unfold forceCut
    rcases hx : lastSoftIdxGo 0 none (remaining.take (maxChars + 1)) with _ | i
    · simpa using h.1
    · by_cases hi : 0 < i <;> simp [hi] <;> omega
  simp only [List.length_drop] at h1 ⊢
  omega

/-- force_split strips its argument first. -/
def force_split (t : List Char) (maxChars : Nat) : List (List Char) :=
  forceSplitGo maxChars (stripWs t)

/-- The sentence-packing loop of split_long_text
(paper_script_generator.py lines 182-197). -/
def slGo (maxChars : Nat) (chunks : List (List Char)) (current : List Char) :
    List (List Char) → List (List Char) × List Char
  | [] => (chunks, current)
  | sentence :: rest =>
    if current = [] then
      if sentence.length ≤ maxChars then slGo maxChars chunks sentence rest
      else slGo maxChars (chunks ++ force_split sentence maxChars) [] rest
    else
      if current.length + sentence.length ≤ maxChars then
        slGo maxChars chunks (current ++ sentence) rest
      else
        if sentence.length ≤ maxChars then
          slGo maxChars (chunks ++ [current]) sentence rest
        else slGo maxChars (chunks ++ [current] ++ force_split sentence maxChars) [] rest

/-- split_long_text (paper_script_generator.py lines 171-202): return
the stripped text whole when it fits (or when the bound is
non-positive, modelled by maxChars = 0), otherwise pack sentences
greedily, force-splitting oversized ones, and return the stripped
nonempty pieces. -/
def split_long_text (t : List Char) (maxChars : Nat) : List (List Char) :=
  if t = [] then []
  else if maxChars = 0 ∨ (stripWs t).length ≤ maxChars then [stripWs t]
  else
    (((if (slGo maxChars [] [] (sentSplit (stripWs t))).2 = [] then
        (slGo maxChars [] [] (sentSplit (stripWs t))).1
      else (slGo maxChars [] [] (sentSplit (stripWs t))).1 ++
        [(slGo maxChars [] [] (sentSplit (stripWs t))).2]).map stripWs).filter (· ≠ []))

/-- The politeness markers of HONORIFIC_SPLIT_PATTERN
(audio_generator.py lines 69-71), in alternation order. -/
def honMarkers : List (List Char) :=
  ["です".data, "ます".data, "ございます".data, "いたします".data,
    "ください".data, "下さい".data]

/-- The separators [/／・] of HONORIFIC_SPLIT_PATTERN. -/
def honSep (c : Char) : Bool := c ∈ ['/', '／', '・']

/-- First alternative of `alts` that is a prefix of `s` (regex
alternation preference order; the markers are pairwise non-prefix, so
at most one matches). -/
def matchAlt (alts : List (List Char)) (s : List Char) : Option (List Char) :=
  alts.find? (fun a => a.isPrefixOf s)

/-- HONORIFIC_SPLIT_PATTERN.sub(r"\1、\2", s): left-to-right
non-overlapping replacement of marker-separator-marker by
marker、marker.  After a match of A sep B the scan resumes right after
B, i.e. at rest.drop (A.length + B.length). -/
def honGo : List Char → List Char
  | [] => []
  | c :: rest =>
    match matchAlt honMarkers (c :: rest) with
    | some a =>
      match (c :: rest).drop a.length with
      | sep :: rest2 =>
        if honSep sep then
          match matchAlt honMarkers rest2 with
          | some b => a ++ '、' :: b ++ honGo (rest.drop (a.length + b.length))
          | none => c :: honGo rest
        else c :: honGo rest
      | [] => c :: honGo rest
    | none => c :: honGo rest
termination_by s => s.length
decreasing_by
  all_goals
    first
      | (simp only [List.length_cons]; omega)
      | (have hd := (List.drop_sublist (a.length + b.length) rest).length_le
         simp only [List.length_cons]
         omega)

/-- A guarded abbreviation substitution: PATTERN.sub(repl, s) for
PATTERN = (?<![A-Za-z0-9])abbr(?![A-Za-z0-9]).  The Bool argument says
whether the character before the scan position (in the original string)
is ASCII alphanumeric; after a replacement the scan resumes after the
abbreviation, whose last character supplies the next lookbehind. -/
def subGuarded (abbr repl : List Char) : Bool → List Char → List Char
  | _, [] => []
  | prevAl, c :: rest =>
    let nextPart := rest.drop (abbr.length - 1)
    if abbr.isPrefixOf (c :: rest) && !prevAl && !(optTest asciiAlnum nextPart.head?) then
      repl ++ subGuarded abbr repl (asciiAlnum (abbr.getLastD c)) nextPart
    else
      c :: subGuarded abbr repl (asciiAlnum c) rest
termination_by _ s => s.length
decreasing_by
  · have := (List.drop_sublist (abbr.length - 1) rest).length_le
    simp only [List.length_cons]
    omega
  · simp

/-- The ABBREVIATION_READINGS table (identical in audio_generator.py
lines 40-62 and paper_script_generator.py lines 34-56). -/
def ABBREVIATION_READINGS : List (List Char × List Char) :=
  [("fMRI".data, "エフエムアールアイ".data),
   ("sEEG".data, "エスイーイージー".data),
   ("iEEG".data, "アイイーイージー".data),
   ("EEG".data, "イーイージー".data),
   ("MEG".data, "エムイージー".data),
   ("EMG".data, "イーエムジー".data),
   ("ECG".data, "イーシージー".data),
   ("ERP".data, "イーアールピー".data),
   ("MRI".data, "エムアールアイ".data),
   ("PET".data, "ピーイーティー".data),
   ("BCI".data, "ビーシーアイ".data),
   ("CNN".data, "シーエヌエヌ".data),
   ("RNN".data, "アールエヌエヌ".data),
   ("GRU".data, "ジーアールユー".data),
   ("LSTM".data, "エルエスティーエム".data),
   ("SVM".data, "エスブイエム".data),
   ("AI".data, "エーアイ".data),
   ("ML".data, "エムエル".data),
   ("DL".data, "ディーエル".data),
   ("AR".data, "エーアール".data),
   ("VR".data, "ブイアール".data)]

/-- str.replace for a single-character pattern. -/
def replaceAll (s : List Char) (c : Char) (r : List Char) : List Char :=
  s.flatMap (fun x => if x = c then r else [x])

/-- normalize_tts_text (audio_generator.py lines 118-125): honorific
split repair, abbreviation readings, then spoken slashes. -/
def normalize_tts_text (t : List Char) : List Char :=
  let n := honGo t
  let n := ABBREVIATION_READINGS.foldl (fun acc p => subGuarded p.1 p.2 false acc) n
  let n := replaceAll n '/' "スラッシュ".data
  replaceAll n '／' "スラッシュ".data

/-- The annotation opener "<skip>". -/
def skipOpen : List Char := "<skip>".data

/-- The annotation closer "</skip>". -/
def skipClose : List Char := "</skip>".data

/-- The scanning loop of replace_outside_parentheses
(paper_script_generator.py lines 130-159): partition the text into
(kind, chunk) parts, kind true meaning outside all full-width
parentheses.  Transcribed statement by statement from the source. -/
def parenScan (parts : List (Bool × List Char)) (buf : List Char) (depth : Nat) :
    List Char → List (Bool × List Char)
  | [] => if buf = [] then parts else parts ++ [(decide (depth = 0), buf)]
  | c :: rest =>
    if c = '（' then
      let parts1 := if depth = 0 then parts ++ [(true, buf)] else parts
      let buf1 := if depth = 0 then [c] else buf ++ [c]
      parenScan parts1 buf1 (depth + 1) rest
    else if c = '）' then
      let depth1 := if 0 < depth then depth - 1 else depth
      let buf1 := buf ++ [c]
      if depth1 = 0 then parenScan (parts ++ [(false, buf1)]) [] 0 rest
      else parenScan parts buf1 depth1 rest
    else parenScan parts (buf ++ [c]) depth rest

/-- replace_outside_parentheses: apply `f` to the outside parts and
keep the inside parts. -/
def replace_outside_parentheses (f : List Char → List Char) (t : List Char) : List Char :=
  ((parenScan [] [] 0 t).map (fun p => if p.1 then f p.2 else p.2)).flatten

mutual

/-- replace_outside_skip (paper_script_generator.py lines 119-127),
segment state: accumulate (reversed) outside-segment characters; a
span starts at the first "<skip>" that has a "</skip>" somewhere after
it (SKIP_TAG_RE's lazy match). -/
def rosGo (f : List Char → List Char) (seg : List Char) : List Char → List Char
  | [] => f seg.reverse
  | c :: rest =>
    if skipOpen.isPrefixOf (c :: rest) && containsSub skipClose ((c :: rest).drop 6) then
      rosSpan f seg.reverse [] ((c :: rest).drop 6)
    else rosGo f (c :: seg) rest
termination_by s => s.length
decreasing_by
  all_goals
    simp only [List.length_drop, List.length_cons]
    omega

/-- replace_outside_skip, span state: accumulate (reversed) span
content until the first "</skip>"; the span is preserved verbatim. -/
def rosSpan (f : List Char → List Char) (before content : List Char) :
    List Char → List Char
  | [] => []
  | c :: rest =>
    if skipClose.isPrefixOf (c :: rest) then
      f before ++ skipOpen ++ content.reverse ++ skipClose ++
        rosGo f [] ((c :: rest).drop 7)
    else rosSpan f before (c :: content) rest
termination_by s => s.length
decreasing_by
  all_goals
    simp only [List.length_drop, List.length_cons]
    omega

end

/-- replace_outside_skip: apply `f` to every maximal region outside the
lazy <skip>…</skip> spans. -/
def replace_outside_skip (f : List Char → List Char) (t : List Char) : List Char :=
  rosGo f [] t

mutual

/-- SKIP_TAG_RE.sub("", s), segment state: keep characters outside the
spans. -/
def stripSkipGo : List Char → List Char
  | [] => []
  | c :: rest =>
    if skipOpen.isPrefixOf (c :: rest) && containsSub skipClose ((c :: rest).drop 6) then
      stripSkipSpan ((c :: rest).drop 6)
    else c :: stripSkipGo rest
termination_by s => s.length
decreasing_by
  all_goals
    simp only [List.length_drop, List.length_cons]
    omega

/-- SKIP_TAG_RE.sub("", s), span state: discard until past the first
"</skip>". -/
def stripSkipSpan : List Char → List Char
  | [] => []
  | c :: rest =>
    if skipClose.isPrefixOf (c :: rest) then stripSkipGo ((c :: rest).drop 7)
    else stripSkipSpan rest
termination_by s => s.length
decreasing_by
  all_goals
    simp only [List.length_drop, List.length_cons]
    omega

end

/-- SKIP_TAG_RE.sub("", s): the text with every <skip>…</skip> span
removed. -/
def stripSkip (t : List Char) : List Char := stripSkipGo t

/-- apply_abbreviation_readings (paper_script_generator.py lines
112-116): substitute each table entry in order, the replacement being
reading（<skip>abbr</skip>）. -/
def apply_abbreviation_readings (t : List Char) : List Char :=
  ABBREVIATION_READINGS.foldl
    (fun acc p => subGuarded p.1 (p.2 ++ '（' :: skipOpen ++ p.1 ++ skipClose ++ ['）']) false acc) t

/-- The regex source text of ENGLISH_TOKEN_RE (paper_script_generator.py
line 32): the characters of the raw string r"[A-Za-z][A-Za-z0-9+\\-./]*"
handed to re.compile. -/
def ENGLISH_TOKEN_RE_SOURCE : List Char := "[A-Za-z][A-Za-z0-9+\\\\-./]*".data

/-- CPython sre_parse character-set parsing, for the constructs occurring
in this pattern: plain literals, backslash-escaped literal characters,
and a-b ranges (with ] closing the set, and a set ending in a bare -
keeping both characters as literals).  A range whose right end is a
smaller code point than its left end raises re.error
"bad character range"; an unterminated set or trailing backslash also
raises.  Each parsed item is returned as a (low, high) pair. -/
def classParse : List Char → Except (List Char) (List (Char × Char))
  | [] => .error "unterminated character set".data
  | ']' :: _ => .ok []
  | '\\' :: [] => .error "bad escape".data
  | '\\' :: c :: '-' :: ']' :: _ => .ok [(c, c), ('-', '-')]
  | '\\' :: _ :: '-' :: '\\' :: [] => .error "bad escape".data
  | '\\' :: c :: '-' :: '\\' :: d :: rest =>
    if d.toNat < c.toNat then .error "bad character range".data
    else
      match classParse rest with
      | .ok items => .ok ((c, d) :: items)
      | .error e => .error e
  | '\\' :: c :: '-' :: d :: rest =>
    if d.toNat < c.toNat then .error "bad character range".data
    else
      match classParse rest with
      | .ok items => .ok ((c, d) :: items)
      | .error e => .error e
  | '\\' :: c :: rest =>
    match classParse rest with
    | .ok items => .ok ((c, c) :: items)
    | .error e => .error e
  | c :: '-' :: ']' :: _ => .ok [(c, c), ('-', '-')]
  | _ :: '-' :: '\\' :: [] => .error "bad escape".data
  | c :: '-' :: '\\' :: d :: rest =>
    if d.toNat < c.toNat then .error "bad character range".data
    else
      match classParse rest with
      | .ok items => .ok ((c, d) :: items)
      | .error e => .error e
  | c :: '-' :: d :: rest =>
    if d.toNat < c.toNat then .error "bad character range".data
    else
      match classParse rest with
      | .ok items => .ok ((c, d) :: items)
      | .error e => .error e
  | c :: rest =>
    match classParse rest with
    | .ok items => .ok ((c, c) :: items)
    | .error e => .error e

/-- Last character of a block (blocks are nonempty; default is unused). -/
def lastD (b : List Char) : Char := b.getLastD ' '

/-- First character of a block (blocks are nonempty; default is unused). -/
def headD (b : List Char) : Char := b.headD ' '

/-- Rebuild a whitespace-canonical string from its space-separated
blocks. -/
def glue : List (List Char) → List Char
  | [] => []
  | [b] => b
  | b :: b2 :: rest => b ++ ' ' :: glue (b2 :: rest)

/-- Well-formed block list: every block is nonempty and free of
whitespace. -/
def WFb (bs : List (List Char)) : Prop :=
  ∀ b ∈ bs, b ≠ [] ∧ ∀ c ∈ b, pyWs c = false

/-- Block-level effect of one whitespace-deletion pass: delete a
separator (merging its two neighbour blocks) exactly when the pass
condition holds of the adjacent blocks. -/
def mergeBlocks (cond : List Char → List Char → Bool) : List (List Char) → List (List Char)
  | [] => []
  | [b] => [b]
  | b :: b2 :: rest =>
    if cond b b2 then mergeBlocks cond ((b ++ b2) :: rest)
    else b :: mergeBlocks cond (b2 :: rest)
termination_by bs => bs.length
decreasing_by
  all_goals simp only [List.length_cons]
  all_goals omega

/-- Separator condition of the lookbehind-lookahead passes. -/
def condBetween (pre post : Char → Bool) (a b : List Char) : Bool :=
  pre (lastD a) && post (headD b)

/-- Separator condition of the delete-before-punctuation passes. -/
def condBefore (post : Char → Bool) (a b : List Char) : Bool :=
  post (headD b)

/-- Separator condition of the delete-after-bracket pass. -/
def condAfterOpen (isOpen : Char → Bool) (a b : List Char) : Bool :=
  isOpen (lastD a)

/-- What follows the first block in a glued block list. -/
def gRest : List (List Char) → List Char
  | [] => []
  | b :: bs => ' ' :: glue (b :: bs)

/-- Characters that play no structural role in the wrapping pipeline:
everything except the full-width parentheses and the angle brackets of
the <skip> tags. -/
def pOK (c : Char) : Bool := !(c = '（' || c = '）' || c = '<' || c = '>')

/-- No ASCII letter occurs in the string. -/
def lettersFree (s : List Char) : Bool := s.all (fun c => !asciiLetter c)

/-- Strings reachable by apply_abbreviation_readings: interleavings of
structurally inert characters and reading annotations
（<skip>w</skip>） whose wrapped word w comes from `W`. -/
inductive Rep (W : List (List Char)) : List Char → Prop
  | nil : Rep W []
  | pchar (c : Char) (s : List Char) : pOK c = true → Rep W s → Rep W (c :: s)
  | annot (w s : List Char) : w ∈ W → Rep W s →
      Rep W ('（' :: skipOpen ++ w ++ skipClose ++ '）' :: s)

/-- Strings that alternate letter-free, '<'-free chunks with verbatim
<skip>w</skip> spans whose content w is '<'-free. -/
inductive SChain : List Char → Prop
  | last (a : List Char) : lettersFree a = true → (∀ c ∈ a, c ≠ '<') → SChain a
  | cons (a w rest : List Char) : lettersFree a = true → (∀ c ∈ a, c ≠ '<') →
      (∀ c ∈ w, c ≠ '<') → SChain rest →
      SChain (a ++ skipOpen ++ w ++ skipClose ++ rest)

-- ========================= theorems =========================


set_option maxRecDepth 10000

/- ---------- wrap_text (claim C10) ---------- -/

theorem wrapLines_flatten (m : Nat) :
    ∀ (t cur : List Char), (wrapLines m cur t).flatten = cur ++ t := by
  intro t
  induction t with
  | nil =>
    intro cur
    by_cases h : cur = [] <;> simp [wrapLines, h]
  | cons c rest ih =>
    intro cur
    simp only [wrapLines]
    split
    · simp [ih]
    · simp [ih]

theorem wrapLines_sizes (m : Nat) (hm : 1 ≤ m) :
    ∀ (t cur : List Char), cur.length < m →
      wrapLines m cur t = [] ∨
        ∃ init last, wrapLines m cur t = init ++ [last] ∧
          (∀ l ∈ init, l.length = m) ∧ 1 ≤ last.length ∧ last.length ≤ m := by
  intro t
  induction t with
  | nil =>
    intro cur hcur
    by_cases h : cur = []
    · left; simp [wrapLines, h]
    · right
      refine ⟨[], cur, by simp [wrapLines, h], by simp, ?_, by omega⟩
      cases cur with
      | nil => exact absurd rfl h
      | cons a l => simp
  | cons c rest ih =>
    intro cur hcur
    simp only [wrapLines]
    split_ifs with hif
    · right
      have hlen : (cur ++ [c]).length = m := by
        simp only [List.length_append, List.length_singleton] at hif ⊢
        omega
      rcases ih [] (by simp only [List.length_nil]; omega) with h0 | ⟨init, last, heq, hin, hl1, hl2⟩
      · exact ⟨[], cur ++ [c], by simp [h0], by simp, by rw [hlen]; omega, by omega⟩
      · exact ⟨(cur ++ [c]) :: init, last, by simp [heq], by
          intro l hl
          rcases List.mem_cons.1 hl with h | h
          · simpa [h] using hlen
          · exact hin l h, hl1, hl2⟩
    · apply ih
      simp only [List.length_append, List.length_singleton] at hif ⊢
      omega

theorem joinNL_filter :
    ∀ (ls : List (List Char)), (∀ l ∈ ls, ∀ c ∈ l, c ≠ '\n') →
      (joinNL ls).filter (fun c => c != '\n') = ls.flatten := by
  intro ls
  induction ls with
  | nil => intro _; simp [joinNL]
  | cons a rest ih =>
    intro h
    cases rest with
    | nil =>
      simp only [joinNL, List.flatten, List.append_nil]
      rw [List.filter_eq_self]
      intro c hc
      simpa using h a (by simp) c hc
    | cons b rest2 =>
      have ha : (a.filter (fun c => c != '\n')) = a := by
        rw [List.filter_eq_self]
        intro c hc
        simpa using h a (by simp) c hc
      simp only [joinNL, List.filter_append, ha, List.filter_cons]
      have hb : ('\n' != '\n') = false := by decide
      simp only [hb, Bool.false_eq_true, if_false, List.flatten_cons]
      rw [ih (fun l hl c hc => h l (by simp [hl]) c hc)]
      simp

/-- Claim C10: for text without newlines and maxChars ≥ 1, wrap_text
cuts the text into lines that are exactly maxChars long except possibly
the last (length between 1 and maxChars), and removing the inserted
newline separators recovers the original text. -/
theorem claim_C10_wrap_text (t : List Char) (m : Nat) (hm : 1 ≤ m)
    (hn : ∀ c ∈ t, c ≠ '\n') :
    (wrapLines m [] t).flatten = t ∧
    (∀ l ∈ (wrapLines m [] t).dropLast, l.length = m) ∧
    (∀ l ∈ wrapLines m [] t, 1 ≤ l.length ∧ l.length ≤ m) ∧
    (wrap_text t m).filter (fun c => c != '\n') = t := by
  have hflat : (wrapLines m [] t).flatten = t := by simpa using wrapLines_flatten m t []
  have hsz := wrapLines_sizes m hm t [] (by simpa using hm)
  have hmem : ∀ l ∈ wrapLines m [] t, ∀ c ∈ l, c ≠ '\n' := by
    intro l hl c hc
    exact hn c (by rw [← hflat]; exact List.mem_flatten.2 ⟨l, hl, hc⟩)
  refine ⟨hflat, ?_, ?_, ?_⟩
  · rcases hsz with h0 | ⟨init, last, heq, hin, _, _⟩
    · simp [h0]
    · intro l hl
      rw [heq, List.dropLast_concat] at hl
      exact hin l hl
  · rcases hsz with h0 | ⟨init, last, heq, hin, hl1, hl2⟩
    · simp [h0]
    · intro l hl
      rw [heq] at hl
      rcases List.mem_append.1 hl with h | h
      · have := hin l h; omega
      · simp only [List.mem_singleton] at h
        subst h; exact ⟨hl1, hl2⟩
  · rw [wrap_text, joinNL_filter _ hmem, hflat]

/- ---------- timeline (claims C3, C4) ---------- -/

theorem clipTimesGo_length : ∀ (ds : List ℚ) (cur : ℚ) (i : Nat),
    (clipTimesGo cur i ds).length = ds.length := by
  intro ds
  induction ds with
  | nil => intro cur i; simp [clipTimesGo]
  | cons d rest ih => intro cur i; simp [clipTimesGo, ih]

theorem clipTimesGo_get : ∀ (ds : List ℚ) (j : Nat) (cur : ℚ) (i : Nat) (d : ℚ),
    ds[j]? = some d →
    (clipTimesGo cur i ds)[j]? = some (cur + (ds.take j).sum, d, i + j) := by
  intro ds
  induction ds with
  | nil => intro j cur i d h; simp at h
  | cons d0 rest ih =>
    intro j cur i d h
    cases j with
    | zero =>
      simp only [List.getElem?_cons_zero, Option.some_inj] at h
      simp [clipTimesGo, h]
    | succ j =>
      simp only [List.getElem?_cons_succ] at h
      have hrec := ih j (cur + d0) (i + 1) d h
      simp only [clipTimesGo, List.getElem?_cons_succ, List.take_succ_cons, List.sum_cons]
      rw [hrec]
      simp only [Option.some_inj, Prod.mk.injEq]
      refine ⟨by ring, by trivial, by omega⟩

/-- Claim C3: the synchronizer pairs clip i with start time equal to
the sum of the durations of clips 0..i-1 and with duration d_i, at
dialogue index i. -/
theorem claim_C3_timeline (ds : List ℚ) :
    (clipTimes ds).length = ds.length ∧
    ∀ (j : Nat) (d : ℚ), ds[j]? = some d →
      (clipTimes ds)[j]? = some ((ds.take j).sum, d, j) := by
  refine ⟨clipTimesGo_length ds 0 0, ?_⟩
  intro j d h
  simpa using clipTimesGo_get ds j 0 0 d h

theorem claim_C3_timeline_witness :
    (([(1 : ℚ), 5/2, 1/2])[2]? = some (1/2 : ℚ)) ∧
    (([(1 : ℚ), 5/2, 1/2].take 2).sum = (7/2 : ℚ)) ∧
    (clipTimes [(1 : ℚ), 5/2, 1/2])[2]? =
      some ((([(1 : ℚ), 5/2, 1/2].take 2).sum), (1/2 : ℚ), 2) := by
  refine ⟨by norm_num, by norm_num, ?_⟩
  exact (claim_C3_timeline [(1 : ℚ), 5/2, 1/2]).2 2 (1/2) (by norm_num)

theorem clipTimesGo_idx_lt : ∀ (ds : List ℚ) (cur : ℚ) (i : Nat) (p : ℚ × ℚ × Nat),
    p ∈ clipTimesGo cur i ds → p.2.2 < i + ds.length := by
  intro ds
  induction ds with
  | nil => intro cur i p h; simp [clipTimesGo] at h
  | cons d rest ih =>
    intro cur i p h
    simp only [clipTimesGo, List.mem_cons] at h
    rcases h with h | h
    · subst h
      show i < i + (d :: rest).length
      simp only [List.length_cons]
      omega
    · have := ih (cur + d) (i + 1) p h
      simp only [List.length_cons]
      omega

theorem filterMap_eq_map_of_forall {α β : Type} (f : α → Option β) (g : α → β) :
    ∀ (l : List α), (∀ a ∈ l, f a = some (g a)) → l.filterMap f = l.map g := by
  intro l
  induction l with
  | nil => intro _; simp
  | cons a rest ih =>
    intro h
    simp only [List.filterMap_cons, h a (by simp), List.map_cons]
    rw [ih (fun b hb => h b (by simp [hb]))]

/-- Claim C4: caption clips are produced exactly when the audio-clip
count equals the caption count, in which case caption i is paired with
audio interval i; on any mismatch no caption is paired at all. -/
theorem claim_C4_caption_pairing (ds : List ℚ) (subs : List DialogueLine) :
    textClipPairs (clipTimes ds) subs =
      if ds.length = subs.length then
        (clipTimes ds).map (fun p => (p.2.2, p.1, p.2.1))
      else [] := by
  have hlen : (clipTimes ds).length = ds.length := clipTimesGo_length ds 0 0
  by_cases h : ds.length = subs.length
  · simp only [h, if_true]
    by_cases hs : subs = []
    · subst hs
      simp only [List.length_nil] at h
      have : ds = [] := List.length_eq_zero.1 h
      subst this
      simp [textClipPairs, clipTimes, clipTimesGo]
    · rw [textClipPairs, if_pos ⟨hs, by omega⟩]
      apply filterMap_eq_map_of_forall
      intro p hp
      have := clipTimesGo_idx_lt ds 0 0 p hp
      rw [if_pos (by omega)]
  · simp only [h, if_false]
    rw [textClipPairs, if_neg]
    rintro ⟨-, hln⟩
    rw [hlen] at hln
    exact h hln

/- ---------- chunk_text (claim C2) ---------- -/

theorem hardSlice_spec (m : Nat) (hm : 1 ≤ m) :
    ∀ (n : Nat) (cur : List Char), cur.length ≤ n →
      (∀ c ∈ (hardSlice m cur).1, c.length = m) ∧ (hardSlice m cur).2.length ≤ m := by
  intro n
  induction n with
  | zero =>
    intro cur hlen
    have : cur = [] := List.length_eq_zero.1 (by omega)
    subst this
    rw [hardSlice]
    simp [hm]
  | succ n ih =>
    intro cur hlen
    rw [hardSlice]
    by_cases h : 0 < m ∧ m < cur.length
    · rw [if_pos h]
      have hrec := ih (cur.drop m) (by simp only [List.length_drop]; omega)
      refine ⟨?_, by simpa using hrec.2⟩
      intro c hc
      simp only at hc
      rcases List.mem_cons.1 hc with h1 | h1
      · subst h1; simp only [List.length_take]; omega
      · exact hrec.1 c h1
    · rw [if_neg h]
      simp only [List.not_mem_nil, false_implies, implies_true, true_and]
      omega

theorem chunkLoop_bound (m : Nat) (hm : 1 ≤ m) :
    ∀ (ps : List (List Char)) (chunks : List (List Char)) (cur : List Char),
      (∀ c ∈ chunks, c.length ≤ m + 1) → cur.length ≤ m + 1 →
      (∀ c ∈ (chunkLoop m chunks cur ps).1, c.length ≤ m + 1) ∧
        (chunkLoop m chunks cur ps).2.length ≤ m + 1 := by
  intro ps
  induction ps with
  | nil => intro chunks cur h1 h2; exact ⟨h1, h2⟩
  | cons para rest ih =>
    intro chunks cur h1 h2
    rw [chunkLoop]
    by_cases h : cur.length + para.length < m
    · rw [if_pos h]
      apply ih _ _ h1
      simp only [List.length_append, nl2, List.length_cons, List.length_nil]
      omega
    · rw [if_neg h]
      have hslice := hardSlice_spec m hm (para ++ nl2).length (para ++ nl2) le_rfl
      apply ih
      · intro c hc
        rcases List.mem_append.1 hc with hc1 | hc1
        · by_cases hcur : cur = []
          · simp only [hcur, if_pos] at hc1
            exact h1 c hc1
          · simp only [hcur, if_neg, not_false_iff] at hc1
            rcases List.mem_append.1 hc1 with hc2 | hc2
            · exact h1 c hc2
            · simp only [List.mem_singleton] at hc2
              subst hc2; omega
        · have := hslice.1 c hc1; omega
      · have := hslice.2; omega

/-- Claim C2 counterexample: chunk_text keeps the reattached
paragraph separator, so with bound 3 the text "ab\n\ncd" produces the
piece "ab\n\n" of length 4 > 3. -/
theorem claim_C2_counterexample :
    ∃ c ∈ chunk_text "ab\n\ncd".data 3, 3 < c.length := by
  have h : chunk_text "ab\n\ncd".data 3 = ["ab\n\n".data, "cd\n".data, "\n".data] := by
    simp [chunk_text, chunkLoop, hardSlice, splitParas, splitParasGo, nl2]
  rw [h]
  decide

/-- Claim C2 amended: every element of chunk_text(t, b) has length at
most b + 1 for every b ≥ 1 (the accumulation step appends the two
separator characters after checking the bound strictly, so a chunk can
exceed the bound by exactly one character). -/
theorem claim_C2_amended (t : List Char) (b : Nat) (hb : 1 ≤ b) :
    ∀ c ∈ chunk_text t b, c.length ≤ b + 1 := by
  intro c hc
  rw [chunk_text] at hc
  by_cases h : t.length ≤ b
  · rw [if_pos h] at hc
    simp only [List.mem_singleton] at hc
    subst hc; omega
  · rw [if_neg h] at hc
    have hloop := chunkLoop_bound b hb (splitParas t) [] [] (by simp) (by simp)
    by_cases h2 : (chunkLoop b [] [] (splitParas t)).2 = []
    · simp only [h2, if_pos] at hc
      exact hloop.1 c hc
    · simp only [h2, if_neg, not_false_iff] at hc
      rcases List.mem_append.1 hc with hc1 | hc1
      · exact hloop.1 c hc1
      · simp only [List.mem_singleton] at hc1
        subst hc1; exact hloop.2

theorem claim_C2_amended_witness :
    (1 ≤ 3 ∧ "ab\n\n".data ∈ chunk_text "ab\n\ncd".data 3) ∧
      "ab\n\n".data.length ≤ 3 + 1 := by
  have h : chunk_text "ab\n\ncd".data 3 = ["ab\n\n".data, "cd\n".data, "\n".data] := by
    simp [chunk_text, chunkLoop, hardSlice, splitParas, splitParasGo, nl2]
  refine ⟨⟨by norm_num, by rw [h]; simp⟩, ?_⟩
  exact claim_C2_amended "ab\n\ncd".data 3 (by norm_num) "ab\n\n".data (by rw [h]; simp)

/- ---------- retry bound (claim C7) ---------- -/

theorem retryGo_fail {α : Type} (call : Nat → Except Unit α) :
    ∀ (k a m : Nat), m ≤ a + k → (∀ i, a ≤ i → i < m → call i = .error ()) →
      retryGo call a m = none := by
  intro k
  induction k with
  | zero =>
    intro a m hm h
    rw [retryGo, dif_neg (by omega)]
  | succ k ih =>
    intro a m hm h
    rw [retryGo]
    by_cases hc : a < m
    · rw [dif_pos hc, h a le_rfl hc]
      exact ih (a + 1) m (by omega) (fun i h1 h2 => h i (by omega) h2)
    · rw [dif_neg hc]

theorem retryGo_congr {α : Type} :
    ∀ (k a m : Nat) (call call' : Nat → Except Unit α), m ≤ a + k →
      (∀ i, a ≤ i → i < m → call i = call' i) →
      retryGo call a m = retryGo call' a m := by
  intro k
  induction k with
  | zero =>
    intro a m call call' hm h
    rw [retryGo, dif_neg (by omega), retryGo, dif_neg (by omega)]
  | succ k ih =>
    intro a m call call' hm h
    rw [retryGo]
    by_cases hc : a < m
    · rw [dif_pos hc, h a le_rfl hc]
      conv_rhs => rw [retryGo, dif_pos hc]
      cases hca : call' a with
      | ok v => rfl
      | error e =>
        exact ih (a + 1) m call call' (by omega) (fun i h1 h2 => h i (by omega) h2)
    · rw [dif_neg hc, retryGo, dif_neg hc]

/-- Claim C7: the script-generation retry loop makes at most 3 attempts
(the outcome depends only on the first three attempt results), and if
all 3 attempts fail it returns None rather than any fabricated
script. -/
theorem claim_C7_retry_bound :
    (∀ call : Nat → Except Unit (List DialogueLine),
      (∀ i < 3, call i = .error ()) → generate_script_retry call = none) ∧
    (∀ call call' : Nat → Except Unit (List DialogueLine),
      (∀ i < 3, call i = call' i) →
        generate_script_retry call = generate_script_retry call') := by
  constructor
  · intro call h
    exact retryGo_fail call 3 0 3 (by omega) (fun i _ h2 => h i h2)
  · intro call call' h
    exact retryGo_congr 3 0 3 call call' (by omega) (fun i _ h2 => h i h2)

theorem claim_C7_retry_bound_witness :
    generate_script_retry (fun _ => (Except.error () : Except Unit (List DialogueLine))) =
      none :=
  claim_C7_retry_bound.1 _ (fun _ _ => rfl)

/- ---------- foreign-term reply records (claim C8) ---------- -/

theorem setLineText_length : ∀ (d : List DialogueLine) (i : Nat) (t : List Char),
    (setLineText d i t).length = d.length := by
  intro d
  induction d with
  | nil => intro i t; rfl
  | cons l rest ih =>
    intro i t
    cases i with
    | zero => rfl
    | succ i => simp [setLineText, ih]

theorem setLineText_setLineText : ∀ (d : List DialogueLine) (i : Nat) (a b : List Char),
    setLineText (setLineText d i a) i b = setLineText d i b := by
  intro d
  induction d with
  | nil => intro i a b; rfl
  | cons l rest ih =>
    intro i a b
    cases i with
    | zero => rfl
    | succ i => simp [setLineText, ih]

/-- Claim C8 counterexample: two reply records carrying the same index
are both applied — the second overwrites the first instead of being
discarded. -/
theorem claim_C8_counterexample :
    rewrite_apply [⟨"N".data, "x".data⟩]
        [(some 0, some "hello".data), (some 0, some "world".data)] =
      [⟨"N".data, "world".data⟩] ∧
    rewrite_apply [⟨"N".data, "x".data⟩]
        [(some 0, some "hello".data), (some 0, some "world".data)] ≠
      [⟨"N".data, "hello".data⟩] := by
  have h : rewrite_apply [(⟨"N".data, "x".data⟩ : DialogueLine)]
      [(some 0, some "hello".data), (some 0, some "world".data)] =
      [⟨"N".data, "world".data⟩] := by
    have e1 : normalize_dialogue_text "hello".data = "hello".data := by
      simp [normalize_dialogue_text, stripWs, collapseWs, delWsBetween, delWsBefore,
        delWsAfterOpen, pyWs, optTest]
    have e2 : normalize_dialogue_text "world".data = "world".data := by
      simp [normalize_dialogue_text, stripWs, collapseWs, delWsBetween, delWsBefore,
        delWsAfterOpen, pyWs, optTest]
    simp [rewrite_apply, setLineText, e1, e2]
  exact ⟨h, by rw [h]; decide⟩

/-- Claim C8 amended: reply records whose index is missing,
non-integral, or outside [0, number of lines), or whose text is
missing, are discarded (filtering them out does not change the
result); but a record whose index was already applied is applied
again — the last valid record for an index wins — rather than being
discarded. -/
theorem claim_C8_amended :
    (∀ (d : List DialogueLine) (items : List (Option Int × Option (List Char))),
      rewrite_apply d items = rewrite_apply d (items.filter (validRecord d.length))) ∧
    (∀ (d : List DialogueLine) (idx : Int) (t t' : List Char),
      rewrite_apply d [(some idx, some t), (some idx, some t')] =
        rewrite_apply d [(some idx, some t')]) := by
  constructor
  · intro d items
    induction items generalizing d with
    | nil => rfl
    | cons item rest ih =>
      rcases item with ⟨oi, ot⟩
      rcases oi with _ | idx
      · simpa [rewrite_apply, List.filter_cons, validRecord] using ih d
      · rcases ot with _ | t
        · simpa [rewrite_apply, List.filter_cons, validRecord] using ih d
        · by_cases h : 0 ≤ idx ∧ idx < (d.length : Int)
          · have hv : validRecord d.length (some idx, some t) = true := by
              simp [validRecord, h.1, h.2]
            rw [rewrite_apply, if_pos h, List.filter_cons, hv]
            simp only [if_pos]
            rw [rewrite_apply, if_pos h]
            have := ih (setLineText d idx.toNat (normalize_dialogue_text t))
            rwa [setLineText_length] at this
          · have hv : validRecord d.length (some idx, some t) = false := by
              simp only [validRecord, decide_eq_false_iff_not]
              exact h
            rw [rewrite_apply, if_neg h, List.filter_cons, hv]
            simp only [Bool.false_eq_true, if_false]
            exact ih d
  · intro d idx t t'
    by_cases h : 0 ≤ idx ∧ idx < (d.length : Int)
    · have h2 : 0 ≤ idx ∧ idx < ((setLineText d idx.toNat (normalize_dialogue_text t)).length : Int) := by
        rw [setLineText_length]; exact h
      rw [rewrite_apply, if_pos h, rewrite_apply, if_pos h2, rewrite_apply,
        setLineText_setLineText, rewrite_apply, if_pos h, rewrite_apply]
    · simp only [rewrite_apply, if_neg h]

theorem claim_C10_wrap_text_witness :
    ((1 ≤ 3 ∧ ∀ c ∈ "abcdefg".data, c ≠ '\n') ∧
      (wrapLines 3 [] "abcdefg".data).flatten = "abcdefg".data) ∧
    (wrap_text "abcdefg".data 3).filter (fun c => c != '\n') = "abcdefg".data :=
  ⟨⟨⟨by norm_num, by decide⟩,
    (claim_C10_wrap_text "abcdefg".data 3 (by norm_num) (by decide)).1⟩,
    (claim_C10_wrap_text "abcdefg".data 3 (by norm_num) (by decide)).2.2.2⟩

/- ---------- split_long_text (claim C6) ---------- -/

theorem stripWs_sublist (s : List Char) : (stripWs s).Sublist s := by
  unfold stripWs
  have h1 : (s.dropWhile pyWs).Sublist s := List.dropWhile_sublist pyWs
  have h2 : (((s.dropWhile pyWs).reverse.dropWhile pyWs).reverse).Sublist
      ((s.dropWhile pyWs).reverse.reverse) :=
    (List.dropWhile_sublist pyWs).reverse
  rw [List.reverse_reverse] at h2
  exact h2.trans h1

theorem stripWs_length_le (s : List Char) : (stripWs s).length ≤ s.length :=
  (stripWs_sublist s).length_le

theorem lastSoftIdxGo_lt :
    ∀ (l : List Char) (i : Nat) (best : Option Nat) (j : Nat),
      (∀ j0, best = some j0 → j0 < i) → lastSoftIdxGo i best l = some j →
        j < i + l.length := by
  intro l
  induction l with
  | nil =>
    intro i best j hb h
    have := hb j h
    simpa using Nat.lt_of_lt_of_le this (by omega)
  | cons c rest ih =>
    intro i best j hb h
    rw [lastSoftIdxGo] at h
    have hb2 : ∀ j0, (if softBreak c then some i else best) = some j0 → j0 < i + 1 := by
      intro j0 hj0
      by_cases hc : softBreak c
      · rw [if_pos hc, Option.some_inj] at hj0; omega
      · rw [if_neg hc] at hj0; have := hb j0 hj0; omega
    have := ih (i + 1) _ j hb2 h
    simp only [List.length_cons]
    omega

theorem forceCut_le (remaining : List Char) (m : Nat) : forceCut remaining m ≤ m := by
  rcases hx : lastSoftIdxGo 0 none (remaining.take (m + 1)) with _ | i
  · rw [forceCut, hx]
  · rw [forceCut, hx]
    have hi : i < 0 + (remaining.take (m + 1)).length :=
      lastSoftIdxGo_lt _ 0 none i (by intro j0 h; cases h) hx
    have hlt : (remaining.take (m + 1)).length ≤ m + 1 := by
      simp only [List.length_take]; omega
    show (if 0 < i then i else m) ≤ m
    by_cases h0 : 0 < i
    · rw [if_pos h0]; omega
    · rw [if_neg h0]

theorem forceCut_pos (remaining : List Char) (m : Nat) (hm : 1 ≤ m) :
    0 < forceCut remaining m := by
  rcases hx : lastSoftIdxGo 0 none (remaining.take (m + 1)) with _ | i
  · rw [forceCut, hx]
    show 0 < m
    omega
  · rw [forceCut, hx]
    show 0 < (if 0 < i then i else m)
    by_cases h0 : 0 < i
    · rw [if_pos h0]; exact h0
    · rw [if_neg h0]; omega

theorem forceSplitGo_spec (m : Nat) (hm : 1 ≤ m) :
    ∀ (n : Nat) (remaining : List Char), remaining.length ≤ n →
      (∀ c ∈ forceSplitGo m remaining, c.length ≤ m ∧ c ≠ []) ∧
      (forceSplitGo m remaining).flatten.Sublist remaining := by
  intro n
  induction n with
  | zero =>
    intro remaining hlen
    have : remaining = [] := List.length_eq_zero.1 (by omega)
    subst this
    rw [forceSplitGo, dif_neg (by simp)]
    simp
  | succ n ih =>
    intro remaining hlen
    rw [forceSplitGo]
    by_cases h : 0 < m ∧ m < remaining.length
    · rw [dif_pos h]
      have hcle := forceCut_le remaining m
      have hcpos := forceCut_pos remaining m hm
      have hrec := ih (stripWs (remaining.drop (forceCut remaining m)))
        (by
          have := stripWs_length_le (remaining.drop (forceCut remaining m))
          simp only [List.length_drop] at this ⊢
          omega)
      have hchunk_len : (stripWs (remaining.take (forceCut remaining m))).length ≤ m := by
        have h1 := stripWs_length_le (remaining.take (forceCut remaining m))
        have h2 : (remaining.take (forceCut remaining m)).length ≤ forceCut remaining m := by
          simp only [List.length_take]; omega
        omega
      have hchunk_sub : (stripWs (remaining.take (forceCut remaining m))).Sublist
          (remaining.take (forceCut remaining m)) := stripWs_sublist _
      have hrest_sub : (forceSplitGo m (stripWs (remaining.drop (forceCut remaining m)))).flatten.Sublist
          (remaining.drop (forceCut remaining m)) :=
        hrec.2.trans (stripWs_sublist _)
      constructor
      · intro c hc
        by_cases hce : stripWs (remaining.take (forceCut remaining m)) = []
        · rw [if_pos hce] at hc
          exact hrec.1 c (by simpa using hc)
        · rw [if_neg hce] at hc
          rcases List.mem_append.1 hc with hc1 | hc1
          · simp only [List.mem_singleton] at hc1
            subst hc1
            exact ⟨hchunk_len, hce⟩
          · exact hrec.1 c hc1
      · by_cases hce : stripWs (remaining.take (forceCut remaining m)) = []
        · rw [if_pos hce]
          simp only [List.nil_append, List.flatten]
          exact hrest_sub.trans ((List.drop_sublist _ _))
        · rw [if_neg hce]
          have := List.Sublist.append (hchunk_sub) hrest_sub
          simpa [List.take_append_drop] using this
    · rw [dif_neg h]
      by_cases hr : remaining = []
      · rw [if_pos hr]; simp
      · rw [if_neg hr]
        refine ⟨?_, by simp⟩
        intro c hc
        simp only [List.mem_singleton] at hc
        subst hc
        exact ⟨by omega, hr⟩

theorem force_split_spec (t : List Char) (m : Nat) (hm : 1 ≤ m) :
    (∀ c ∈ force_split t m, c.length ≤ m ∧ c ≠ []) ∧
      (force_split t m).flatten.Sublist t := by
  have h := forceSplitGo_spec m hm (stripWs t).length (stripWs t) le_rfl
  exact ⟨h.1, h.2.trans (stripWs_sublist t)⟩

theorem sentSplitGo_flatten :
    ∀ (t cur : List Char), (sentSplitGo cur t).flatten = cur.reverse ++ t := by
  intro t
  induction t with
  | nil => intro cur; simp [sentSplitGo]
  | cons c rest ih =>
    intro cur
    rw [sentSplitGo]
    by_cases h : sentTerm c
    · rw [if_pos h]
      simp [ih]
    · rw [if_neg h]
      simp [ih]

theorem flatten_filter_ne_nil :
    ∀ (l : List (List Char)), (l.filter (· ≠ [])).flatten = l.flatten := by
  intro l
  induction l with
  | nil => simp
  | cons a rest ih =>
    simp only [ne_eq, decide_not] at ih
    by_cases h : a = []
    · simp [h, ih]
    · simp [h, ih]

theorem sentSplit_flatten (t : List Char) : (sentSplit t).flatten = t := by
  rw [sentSplit, flatten_filter_ne_nil, sentSplitGo_flatten]
  simp

theorem slGo_spec (m : Nat) (hm : 1 ≤ m) :
    ∀ (sentences chunks : List (List Char)) (current : List Char),
      (∀ c ∈ chunks, c.length ≤ m) → current.length ≤ m →
      (∀ c ∈ (slGo m chunks current sentences).1, c.length ≤ m) ∧
      (slGo m chunks current sentences).2.length ≤ m ∧
      ((slGo m chunks current sentences).1.flatten ++
        (slGo m chunks current sentences).2).Sublist
        (chunks.flatten ++ current ++ sentences.flatten) := by
  intro sentences
  induction sentences with
  | nil =>
    intro chunks current h1 h2
    exact ⟨h1, h2, by simp [slGo]⟩
  | cons sentence rest ih =>
    intro chunks current h1 h2
    rw [slGo]
    by_cases hc : current = []
    · rw [if_pos hc]
      subst hc
      by_cases hf : sentence.length ≤ m
      · rw [if_pos hf]
        have := ih chunks sentence h1 hf
        refine ⟨this.1, this.2.1, ?_⟩
        have h3 := this.2.2
        simpa [List.append_assoc] using h3
      · rw [if_neg hf]
        have hforce := force_split_spec sentence m hm
        have := ih (chunks ++ force_split sentence m) []
          (by
            intro c hcc
            rcases List.mem_append.1 hcc with hx | hx
            · exact h1 c hx
            · exact (hforce.1 c hx).1)
          (by simp)
        refine ⟨this.1, this.2.1, ?_⟩
        have h3 := this.2.2
        have h4 : ((chunks ++ force_split sentence m).flatten ++ [] ++ rest.flatten).Sublist
            (chunks.flatten ++ [] ++ (sentence :: rest).flatten) := by
          simp only [List.flatten_append, List.flatten_cons, List.flatten_nil,
            List.append_nil, List.append_assoc]
          exact (List.Sublist.refl _).append ((hforce.2).append (List.Sublist.refl _))
        exact h3.trans h4
    · rw [if_neg hc]
      by_cases hf : current.length + sentence.length ≤ m
      · rw [if_pos hf]
        have := ih chunks (current ++ sentence) h1 (by simpa using hf)
        refine ⟨this.1, this.2.1, ?_⟩
        have h3 := this.2.2
        simpa [List.append_assoc] using h3
      · rw [if_neg hf]
        by_cases hs : sentence.length ≤ m
        · rw [if_pos hs]
          have := ih (chunks ++ [current]) sentence
            (by
              intro c hcc
              rcases List.mem_append.1 hcc with hx | hx
              · exact h1 c hx
              · simp only [List.mem_singleton] at hx; subst hx; exact h2)
            hs
          refine ⟨this.1, this.2.1, ?_⟩
          have h3 := this.2.2
          simpa [List.append_assoc] using h3
        · rw [if_neg hs]
          have hforce := force_split_spec sentence m hm
          have := ih (chunks ++ [current] ++ force_split sentence m) []
            (by
              intro c hcc
              rcases List.mem_append.1 hcc with hx | hx
              · rcases List.mem_append.1 hx with hy | hy
                · exact h1 c hy
                · simp only [List.mem_singleton] at hy; subst hy; exact h2
              · exact (hforce.1 c hx).1)
            (by simp)
          refine ⟨this.1, this.2.1, ?_⟩
          have h3 := this.2.2
          have h4 : ((chunks ++ [current] ++ force_split sentence m).flatten ++ [] ++
              rest.flatten).Sublist
              (chunks.flatten ++ current ++ (sentence :: rest).flatten) := by
            simp only [List.flatten_append, List.flatten_cons, List.flatten_nil,
              List.append_nil, List.append_assoc]
            exact (List.Sublist.refl _).append ((List.Sublist.refl _).append
              ((hforce.2).append (List.Sublist.refl _)))
          exact h3.trans h4

theorem flatten_map_stripWs_sublist :
    ∀ (l : List (List Char)), ((l.map stripWs).flatten).Sublist l.flatten := by
  intro l
  induction l with
  | nil => simp
  | cons a rest ih =>
    simp only [List.map_cons, List.flatten_cons]
    exact (stripWs_sublist a).append ih

/-- Claim C6 counterexample: on whitespace-only input the early-return
path returns the stripped text whole, which is the empty string — an
empty element. -/
theorem claim_C6_counterexample : ∃ c ∈ split_long_text " ".data 1, c = [] := by
  have h : split_long_text " ".data 1 = [[]] := by
    simp [split_long_text, stripWs, pyWs]
  rw [h]
  exact ⟨[], by simp, rfl⟩

/-- Claim C6 amended: for every bound b ≥ 1 every element of
split_long_text(t, b) has length at most b, the elements occur in the
order of the corresponding pieces of t (their concatenation is a
subsequence of t), and every element is nonempty provided t contains a
non-whitespace character (on whitespace-only input the single returned
element is the empty string). -/
theorem claim_C6_amended (t : List Char) (b : Nat) (hb : 1 ≤ b) :
    (∀ c ∈ split_long_text t b, c.length ≤ b) ∧
    (stripWs t ≠ [] → ∀ c ∈ split_long_text t b, c ≠ []) ∧
    ((split_long_text t b).flatten).Sublist t := by
  rw [split_long_text]
  by_cases ht : t = []
  · rw [if_pos ht]
    subst ht
    exact ⟨by simp, by simp, by simp⟩
  · rw [if_neg ht]
    by_cases hfit : b = 0 ∨ (stripWs t).length ≤ b
    · rw [if_pos hfit]
      have hlen : (stripWs t).length ≤ b := by
        rcases hfit with h0 | h0
        · omega
        · exact h0
      refine ⟨?_, ?_, ?_⟩
      · intro c hc
        simp only [List.mem_singleton] at hc
        subst hc; exact hlen
      · intro hne c hc
        simp only [List.mem_singleton] at hc
        subst hc; exact hne
      · simpa using stripWs_sublist t
    · rw [if_neg hfit]
      have hsl := slGo_spec b hb (sentSplit (stripWs t)) [] [] (by simp) (by simp)
      set r := slGo b [] [] (sentSplit (stripWs t)) with hr
      have hall : ∀ c ∈ (if r.2 = [] then r.1 else r.1 ++ [r.2]), c.length ≤ b := by
        intro c hc
        by_cases h2 : r.2 = []
        · rw [if_pos h2] at hc; exact hsl.1 c hc
        · rw [if_neg h2] at hc
          rcases List.mem_append.1 hc with hx | hx
          · exact hsl.1 c hx
          · simp only [List.mem_singleton] at hx; subst hx; exact hsl.2.1
      have hflat : ((if r.2 = [] then r.1 else r.1 ++ [r.2]).flatten).Sublist t := by
        have hbase : (r.1.flatten ++ r.2).Sublist t := by
          have h1 := hsl.2.2
          simp only [List.flatten_nil, List.nil_append] at h1
          rw [sentSplit_flatten] at h1
          exact h1.trans (stripWs_sublist t)
        by_cases h2 : r.2 = []
        · rw [if_pos h2]
          rw [h2] at hbase
          simpa using hbase
        · rw [if_neg h2]
          simpa using hbase
      refine ⟨?_, ?_, ?_⟩
      · intro c hc
        rcases List.mem_filter.1 hc with ⟨hc1, _⟩
        rcases List.mem_map.1 hc1 with ⟨c0, hc0, hrfl⟩
        subst hrfl
        have := hall c0 hc0
        have := stripWs_length_le c0
        omega
      · intro _ c hc
        rcases List.mem_filter.1 hc with ⟨_, hc2⟩
        simpa using hc2
      · rw [flatten_filter_ne_nil]
        exact (flatten_map_stripWs_sublist _).trans hflat

theorem claim_C6_amended_witness :
    ((1 ≤ 1 ∧ stripWs "abc".data ≠ []) ∧ split_long_text "abc".data 1 = ["a".data, "b".data, "c".data]) ∧
    (∀ c ∈ split_long_text "abc".data 1, c.length ≤ 1) ∧
    (∀ c ∈ split_long_text "abc".data 1, c ≠ []) := by
  have heval : split_long_text "abc".data 1 = ["a".data, "b".data, "c".data] := by
    simp [split_long_text, stripWs, pyWs, sentSplit, sentSplitGo, sentTerm, slGo,
      force_split, forceSplitGo, forceCut, lastSoftIdxGo, softBreak, collapseWs]
  have hne : stripWs "abc".data ≠ [] := by
    simp [stripWs, pyWs]
  refine ⟨⟨⟨le_rfl, hne⟩, heval⟩, ?_, ?_⟩
  · exact (claim_C6_amended "abc".data 1 le_rfl).1
  · exact (claim_C6_amended "abc".data 1 le_rfl).2.1 hne

/- ---------- honorific splitting (claim C9) ---------- -/

theorem isPrefixOf_self_append : ∀ (A y : List Char), A.isPrefixOf (A ++ y) = true := by
  intro A y
  induction A with
  | nil => simp [List.isPrefixOf]
  | cons a A ih => simp [List.isPrefixOf, ih]

theorem isPrefixOf_le_of_append :
    ∀ (X A y : List Char), X.isPrefixOf (A ++ y) = true → X.length ≤ A.length →
      X.isPrefixOf A = true := by
  intro X
  induction X with
  | nil => intro A y _ _; simp [List.isPrefixOf]
  | cons x X ih =>
    intro A y hp hl
    cases A with
    | nil => simp at hl
    | cons a A2 =>
      simp only [List.cons_append, List.isPrefixOf, Bool.and_eq_true, beq_iff_eq] at hp ⊢
      refine ⟨hp.1, ih A2 y hp.2 ?_⟩
      simp only [List.length_cons] at hl
      omega

theorem append_isPrefixOf_of_le :
    ∀ (A X y : List Char), X.isPrefixOf (A ++ y) = true → A.length ≤ X.length →
      A.isPrefixOf X = true := by
  intro A
  induction A with
  | nil => intro X y _ _; simp [List.isPrefixOf]
  | cons a A2 ih =>
    intro X y hp hl
    cases X with
    | nil => simp at hl
    | cons x X2 =>
      simp only [List.cons_append, List.isPrefixOf, Bool.and_eq_true, beq_iff_eq] at hp ⊢
      refine ⟨hp.1.symm, ih X2 y hp.2 ?_⟩
      simp only [List.length_cons] at hl
      omega

theorem honMarkers_nonoverlap :
    ∀ X ∈ honMarkers, ∀ A ∈ honMarkers, X.isPrefixOf A = true → X = A := by decide

theorem honMarkers_ne_nil : ∀ A ∈ honMarkers, A ≠ [] := by decide

theorem honMarkers_chars :
    ∀ A ∈ honMarkers, ∀ c ∈ A, asciiAlnum c = false ∧ c ≠ '/' ∧ c ≠ '／' := by decide

theorem find?_first_eq (alts : List (List Char)) (A y : List Char) (hA : A ∈ alts)
    (key : ∀ X ∈ alts, X.isPrefixOf (A ++ y) = true → X = A) :
    alts.find? (fun a => a.isPrefixOf (A ++ y)) = some A := by
  induction alts with
  | nil => cases hA
  | cons X rest ih =>
    by_cases hp : X.isPrefixOf (A ++ y) = true
    · rw [List.find?_cons_of_pos (p := fun a => a.isPrefixOf (A ++ y)) rest hp,
        key X (by simp) hp]
    · rw [List.find?_cons_of_neg (p := fun a => a.isPrefixOf (A ++ y)) rest
        (by simpa using hp)]
      apply ih
      · rcases List.mem_cons.1 hA with h | h
        · exact absurd (h ▸ isPrefixOf_self_append A y) hp
        · exact h
      · intro Z hZ
        exact key Z (by simp [hZ])

theorem matchAlt_self (A y : List Char) (hA : A ∈ honMarkers) :
    matchAlt honMarkers (A ++ y) = some A := by
  apply find?_first_eq honMarkers A y hA
  intro X hX hp
  by_cases hl : X.length ≤ A.length
  · exact honMarkers_nonoverlap X hX A hA (isPrefixOf_le_of_append X A y hp hl)
  · exact (honMarkers_nonoverlap A hA X hX
      (append_isPrefixOf_of_le A X y hp (by omega))).symm

theorem honGo_pair (A B : List Char) (s : Char) (hA : A ∈ honMarkers)
    (hB : B ∈ honMarkers) (hs : honSep s = true) :
    honGo (A ++ s :: B) = A ++ '、' :: B := by
  obtain ⟨a0, A2, hAe⟩ : ∃ a0 A2, A = a0 :: A2 := by
    cases A with
    | nil => exact absurd rfl (honMarkers_ne_nil [] hA)
    | cons a0 A2 => exact ⟨a0, A2, rfl⟩
  subst hAe
  have hm1 : matchAlt honMarkers (a0 :: (A2 ++ s :: B)) = some (a0 :: A2) := by
    simpa using matchAlt_self (a0 :: A2) (s :: B) hA
  have hdrop : (a0 :: (A2 ++ s :: B)).drop (a0 :: A2).length = s :: B := by
    have := List.drop_left (a0 :: A2) (s :: B)
    simpa using this
  have hm2 : matchAlt honMarkers B = some B := by
    simpa using matchAlt_self B [] hB
  have hdrop2 : (A2 ++ s :: B).drop ((a0 :: A2).length + B.length) = [] := by
    apply List.drop_eq_nil_of_le
    simp only [List.length_append, List.length_cons]
    omega
  show honGo (a0 :: (A2 ++ s :: B)) = (a0 :: A2) ++ '、' :: B
  simp only [honGo, hm1, hdrop, hs, if_true, hm2, hdrop2]
  simp [honGo]

theorem subGuarded_id (abbr repl : List Char) (a0 : Char) (h0 : abbr.head? = some a0)
    (ha : asciiAlnum a0 = true) :
    ∀ (s : List Char) (prevAl : Bool), (∀ c ∈ s, asciiAlnum c = false) →
      subGuarded abbr repl prevAl s = s := by
  intro s
  induction s with
  | nil => intro prevAl _; rw [subGuarded]
  | cons c rest ih =>
    intro prevAl hs
    rw [subGuarded]
    have hnp : abbr.isPrefixOf (c :: rest) = false := by
      cases abbr with
      | nil => simp at h0
      | cons a abbr2 =>
        simp only [Option.some_inj, List.head?_cons] at h0
        subst h0
        simp only [List.isPrefixOf, Bool.and_eq_false_iff, beq_eq_false_iff_ne, ne_eq]
        left
        intro he
        rw [he] at ha
        rw [hs c (by simp)] at ha
        cases ha
    rw [hnp]
    simp only [Bool.false_and, Bool.false_eq_true, if_false]
    rw [ih (asciiAlnum c) (fun c2 h2 => hs c2 (by simp [h2]))]

theorem abbrevFold_id :
    ∀ (s : List Char), (∀ c ∈ s, asciiAlnum c = false) →
      ABBREVIATION_READINGS.foldl (fun acc p => subGuarded p.1 p.2 false acc) s = s := by
  have hheads : ∀ p ∈ ABBREVIATION_READINGS, ∃ a0, p.1.head? = some a0 ∧ asciiAlnum a0 = true := by
    decide
  have main : ∀ (entries : List (List Char × List Char)),
      (∀ p ∈ entries, ∃ a0, p.1.head? = some a0 ∧ asciiAlnum a0 = true) →
      ∀ (s : List Char), (∀ c ∈ s, asciiAlnum c = false) →
        entries.foldl (fun acc p => subGuarded p.1 p.2 false acc) s = s := by
    intro entries
    induction entries with
    | nil => intro _ s _; rfl
    | cons p rest ih =>
      intro hh s hs
      obtain ⟨a0, h0, ha⟩ := hh p (by simp)
      simp only [List.foldl_cons]
      rw [subGuarded_id p.1 p.2 a0 h0 ha s false hs]
      exact ih (fun q hq => hh q (by simp [hq])) s hs
  exact main ABBREVIATION_READINGS hheads

theorem replaceAll_id (s : List Char) (c : Char) (r : List Char)
    (h : ∀ x ∈ s, x ≠ c) : replaceAll s c r = s := by
  induction s with
  | nil => rfl
  | cons x rest ih =>
    rw [replaceAll]
    simp only [List.flatMap_cons]
    rw [if_neg (h x (by simp))]
    have := ih (fun y hy => h y (by simp [hy]))
    rw [replaceAll] at this
    simp [this]

/-- Claim C9 counterexample: in a run of three politeness markers only
the first separator is repaired — the regex scan resumes after the
matched pair, so です/ます/ございます becomes です、ます followed by
the spoken slash and ございます, not です、ます、ございます. -/
theorem claim_C9_counterexample :
    normalize_tts_text "です/ます/ございます".data = "です、ますスラッシュございます".data ∧
    normalize_tts_text "です/ます/ございます".data ≠ "です、ます、ございます".data := by
  have h : normalize_tts_text "です/ます/ございます".data = "です、ますスラッシュございます".data := by
    simp [normalize_tts_text, honGo, matchAlt, honMarkers, honSep, List.find?,
      List.isPrefixOf, ABBREVIATION_READINGS, subGuarded, replaceAll, optTest,
      asciiAlnum, asciiLetter, asciiDigit]
  exact ⟨h, by rw [h]; decide⟩

/-- Claim C9 amended: a pair of consecutive politeness markers joined
by a slash, full-width slash or middle dot is replaced by the two
markers joined with 、; the replacement scan is non-overlapping, so in
a run of three markers only the first pair is joined and the remaining
slash is later replaced by the spoken form スラッシュ. -/
theorem claim_C9_amended :
    (∀ A ∈ honMarkers, ∀ B ∈ honMarkers, ∀ s : Char, honSep s = true →
      normalize_tts_text (A ++ s :: B) = A ++ '、' :: B) ∧
    normalize_tts_text "です/ます/ございます".data =
      "です、ます".data ++ "スラッシュ".data ++ "ございます".data := by
  constructor
  · intro A hA B hB s hs
    have hchars : ∀ c ∈ A ++ '、' :: B, asciiAlnum c = false ∧ c ≠ '/' ∧ c ≠ '／' := by
      intro c hc
      rcases List.mem_append.1 hc with h | h
      · exact honMarkers_chars A hA c h
      · rcases List.mem_cons.1 h with h | h
        · subst h; exact ⟨by decide, by decide, by decide⟩
        · exact honMarkers_chars B hB c h
    simp only [normalize_tts_text]
    rw [honGo_pair A B s hA hB hs]
    rw [abbrevFold_id _ (fun c hc => (hchars c hc).1)]
    rw [replaceAll_id _ _ _ (fun c hc => (hchars c hc).2.1)]
    rw [replaceAll_id _ _ _ (fun c hc => (hchars c hc).2.2)]
  · simp [normalize_tts_text, honGo, matchAlt, honMarkers, honSep, List.find?,
      List.isPrefixOf, ABBREVIATION_READINGS, subGuarded, replaceAll, optTest,
      asciiAlnum, asciiLetter, asciiDigit]

theorem claim_C9_amended_witness :
    ("です".data ∈ honMarkers ∧ honSep '/' = true) ∧
    normalize_tts_text ("です".data ++ '/' :: "ます".data) = "です".data ++ '、' :: "ます".data :=
  ⟨⟨by decide, by decide⟩,
    claim_C9_amended.1 "です".data (by decide) "ます".data (by decide) '/' (by decide)⟩

/- ---------- normalize_dialogue_text idempotence (claim C5) ---------- -/

theorem dropWhile_head_false (p : Char → Bool) :
    ∀ (l : List Char) (d : Char) (r : List Char), l.dropWhile p = d :: r → p d = false := by
  intro l
  induction l with
  | nil => intro d r h; simp at h
  | cons c rest ih =>
    intro d r h
    by_cases hc : p c
    · rw [List.dropWhile_cons_of_pos hc] at h
      exact ih d r h
    · rw [List.dropWhile_cons_of_neg hc] at h
      rcases h with ⟨rfl, -⟩
      simpa using hc

theorem collapse_mem : ∀ (t : List Char), ∀ c ∈ collapseWs t, pyWs c = true → c = ' ' := by
  intro t
  induction t using collapseWs.induct with
  | case1 => intro c hc; simp [collapseWs] at hc
  | case2 c rest hws ih =>
    intro x hx hpy
    rw [collapseWs, if_pos hws] at hx
    rcases List.mem_cons.1 hx with h | h
    · exact h
    · exact ih x h hpy
  | case3 c rest hws ih =>
    intro x hx hpy
    rw [collapseWs, if_neg hws] at hx
    rcases List.mem_cons.1 hx with h | h
    · subst h; rw [hpy] at hws; cases hws rfl
    · exact ih x h hpy

theorem noDbl_chain_collapse :
    ∀ (t : List Char),
      List.Chain' (fun a b => ¬(pyWs a = true ∧ pyWs b = true)) (collapseWs t) := by
  intro t
  induction t using collapseWs.induct with
  | case1 => simp [collapseWs]
  | case2 c rest hws ih =>
    rw [collapseWs, if_pos hws]
    rw [List.chain'_cons']
    refine ⟨?_, ih⟩
    intro b hb
    rcases he : rest.dropWhile pyWs with _ | ⟨d, u⟩
    · rw [he] at hb; simp [collapseWs] at hb
    · rw [he] at hb
      have hd : pyWs d = false := dropWhile_head_false pyWs rest d u he
      rw [collapseWs, if_neg (by simp [hd])] at hb
      simp only [List.head?_cons, Option.mem_def, Option.some_inj] at hb
      subst hb
      rintro ⟨-, h2⟩
      rw [hd] at h2; cases h2
  | case3 c rest hws ih =>
    rw [collapseWs, if_neg hws]
    rw [List.chain'_cons']
    refine ⟨?_, ih⟩
    intro b _
    rintro ⟨h1, -⟩
    rw [h1] at hws; cases hws rfl

theorem stripWs_decomp (s : List Char) :
    s = s.takeWhile pyWs ++ (stripWs s ++
      ((s.dropWhile pyWs).reverse.takeWhile pyWs).reverse) := by
  conv_lhs => rw [← List.takeWhile_append_dropWhile (p := pyWs) (l := s)]
  congr 1
  conv_lhs => rw [← List.reverse_reverse (s.dropWhile pyWs)]
  conv_lhs => rw [← List.takeWhile_append_dropWhile (p := pyWs) (l := (s.dropWhile pyWs).reverse)]
  rw [List.reverse_append]
  rfl

theorem strip_head_nonws (s : List Char) (d : Char) (r : List Char)
    (h : stripWs s = d :: r) : pyWs d = false := by
  have hd := stripWs_decomp s
  have : s.dropWhile pyWs = stripWs s ++ ((s.dropWhile pyWs).reverse.takeWhile pyWs).reverse := by
    conv_lhs => rw [← List.reverse_reverse (s.dropWhile pyWs)]
    conv_lhs => rw [← List.takeWhile_append_dropWhile (p := pyWs) (l := (s.dropWhile pyWs).reverse)]
    rw [List.reverse_append]
    rfl
  rw [h] at this
  exact dropWhile_head_false pyWs s d _ this

theorem strip_last_nonws (s : List Char) (d : Char)
    (h : (stripWs s).getLast? = some d) : pyWs d = false := by
  unfold stripWs at h
  rw [List.getLast?_reverse] at h
  rcases he : ((s.dropWhile pyWs).reverse.dropWhile pyWs) with _ | ⟨x, u⟩
  · rw [he] at h; simp at h
  · rw [he] at h
    simp only [List.head?_cons, Option.some_inj] at h
    subst h
    exact dropWhile_head_false pyWs _ _ u he

theorem glue_cons (b : List Char) (bs : List (List Char)) (hbs : bs ≠ []) :
    glue (b :: bs) = b ++ ' ' :: glue bs := by
  cases bs with
  | nil => cases hbs rfl
  | cons b2 rest => rfl

theorem blocks_of_canon :
    ∀ (n : Nat) (s : List Char), s.length ≤ n →
      (∀ c ∈ s, pyWs c = true → c = ' ') →
      List.Chain' (fun a b => ¬(pyWs a = true ∧ pyWs b = true)) s →
      (∀ r, s ≠ ' ' :: r) →
      (s.getLast? ≠ some ' ') →
      ∃ bs, WFb bs ∧ s = glue bs := by
  intro n
  induction n with
  | zero =>
    intro s hlen _ _ _ _
    have : s = [] := List.length_eq_zero.1 (by omega)
    exact ⟨[], by simp [WFb], by simp [this, glue]⟩
  | succ n ih =>
    intro s hlen hmem hch hhead hlast
    cases hs : s with
    | nil => exact ⟨[], by simp [WFb], by simp [glue]⟩
    | cons c s2 =>
      subst hs
      have hcsp : c ≠ ' ' := by
        intro he; exact hhead s2 (by rw [he])
      have hcws : pyWs c = false := by
        by_cases hw : pyWs c = true
        · exact absurd (hmem c (by simp) hw) hcsp
        · simpa using hw
      set w := (c :: s2).takeWhile (fun x => !(x == ' ')) with hw
      set v := (c :: s2).dropWhile (fun x => !(x == ' ')) with hv
      have hsplit : w ++ v = c :: s2 := List.takeWhile_append_dropWhile _ _
      have hwne : w ≠ [] := by
        rw [hw, List.takeWhile_cons_of_pos (by simp [hcsp])]
        simp
      have hwchars : ∀ x ∈ w, pyWs x = false := by
        intro x hx
        have hxs : x ∈ c :: s2 := by
          rw [← hsplit]; exact List.mem_append.2 (Or.inl hx)
        have hxsp : ¬(x = ' ') := by
          rw [hw] at hx
          have hmem2 := List.mem_takeWhile_imp hx
          intro he
          rw [he] at hmem2
          simp at hmem2
        by_cases hpw : pyWs x = true
        · exact absurd (hmem x hxs hpw) hxsp
        · simpa using hpw
      rcases hv2 : v with _ | ⟨x, v2⟩
      · refine ⟨[w], ?_, ?_⟩
        · intro b hb
          simp only [List.mem_singleton] at hb
          subst hb
          exact ⟨hwne, hwchars⟩
        · rw [← hsplit, hv2]
          simp [glue]
      · have hxsp : x = ' ' := by
          have := dropWhile_head_false (fun x => !(x == ' ')) (c :: s2) x v2 (by rw [← hv, hv2])
          simpa using this
        subst hxsp
        have hv2ne : v2 ≠ [] := by
          intro he
          rw [he] at hv2
          have : (c :: s2).getLast? = some ' ' := by
            rw [← hsplit, hv2]
            rw [List.getLast?_append_of_ne_nil _ (by simp)]
            rfl
          exact hlast this
        have hch2 : List.Chain' (fun a b => ¬(pyWs a = true ∧ pyWs b = true)) (' ' :: v2) := by
          have := hch
          rw [← hsplit, hv2] at this
          exact this.right_of_append
        have hv2head : ∀ r, v2 ≠ ' ' :: r := by
          intro r he
          rw [List.chain'_cons'] at hch2
          have := hch2.1 ' ' (by rw [he]; rfl)
          exact this ⟨by decide, by decide⟩
        have hv2last : v2.getLast? ≠ some ' ' := by
          have hgl : (c :: s2).getLast? = v2.getLast? := by
            rw [← hsplit, hv2]
            rw [show w ++ ' ' :: v2 = (w ++ [' ']) ++ v2 by simp]
            exact List.getLast?_append_of_ne_nil _ hv2ne
          rw [← hgl]
          exact hlast
        have hlen2 : v2.length ≤ n := by
          have := congrArg List.length hsplit
          rw [hv2] at this
          simp only [List.length_append, List.length_cons] at this hlen
          have hw1 : 0 < w.length := List.length_pos.2 hwne
          omega
        have hmem2 : ∀ x ∈ v2, pyWs x = true → x = ' ' := by
          intro x hx
          exact hmem x (by rw [← hsplit, hv2]; simp [hx])
        obtain ⟨bs2, hwf2, heq2⟩ := ih v2 hlen2 hmem2 hch2.tail hv2head hv2last
        have hbs2ne : bs2 ≠ [] := by
          intro he
          rw [he] at heq2
          exact hv2ne (by simpa [glue] using heq2)
        refine ⟨w :: bs2, ?_, ?_⟩
        · intro b hb
          rcases List.mem_cons.1 hb with h | h
          · subst h; exact ⟨hwne, hwchars⟩
          · exact hwf2 b h
        · rw [glue_cons w bs2 hbs2ne, ← heq2, ← hsplit, hv2]

theorem canon_strip_collapse (t : List Char) :
    ∃ bs, WFb bs ∧ stripWs (collapseWs t) = glue bs := by
  apply blocks_of_canon (stripWs (collapseWs t)).length _ le_rfl
  · intro c hc
    exact collapse_mem t c ((stripWs_sublist (collapseWs t)).subset hc)
  · have hch := noDbl_chain_collapse t
    have hd := stripWs_decomp (collapseWs t)
    rw [hd] at hch
    exact hch.right_of_append.left_of_append
  · intro r he
    have := strip_head_nonws (collapseWs t) ' ' r he
    simp [pyWs] at this
  · intro he
    have := strip_last_nonws (collapseWs t) ' ' he
    simp [pyWs] at this

/- ---------- block-level helper lemmas ---------- -/

theorem lastD_append (x y : List Char) (hy : y ≠ []) : lastD (x ++ y) = lastD y := by
  unfold lastD
  rw [List.getLastD_eq_getLast?, List.getLastD_eq_getLast?,
    List.getLast?_append_of_ne_nil x hy]

theorem headD_append (y z : List Char) (hy : y ≠ []) : headD (y ++ z) = headD y := by
  cases y with
  | nil => cases hy rfl
  | cons h t => rfl

theorem glue_split (b : List Char) (bs : List (List Char)) :
    glue (b :: bs) = b ++ gRest bs := by
  cases bs with
  | nil => simp [glue, gRest]
  | cons b2 rest => simp [glue, gRest]

theorem glue_ne_nil (b : List Char) (bs : List (List Char)) (hb : b ≠ []) :
    glue (b :: bs) ≠ [] := by
  rw [glue_split]
  intro h
  rcases List.append_eq_nil.1 h with ⟨h1, -⟩
  exact hb h1

theorem glue_head (b : List Char) (bs : List (List Char)) (hb : b ≠ []) :
    (glue (b :: bs)).head? = some (headD b) := by
  rw [glue_split]
  cases b with
  | nil => cases hb rfl
  | cons h t => rfl

theorem glue_cons_eq (b : List Char) (bs : List (List Char)) (hb : b ≠ []) :
    glue (b :: bs) = headD b :: (b.tail ++ gRest bs) := by
  rw [glue_split]
  cases b with
  | nil => cases hb rfl
  | cons h t => rfl

theorem dropWhile_nonws_head (l : List Char)
    (h : optTest pyWs l.head? = false) : l.dropWhile pyWs = l := by
  cases l with
  | nil => rfl
  | cons c rest =>
    simp only [List.head?_cons, optTest] at h
    rw [List.dropWhile_cons_of_neg (by simp [h])]

theorem takeWhile_nonws_head (l : List Char)
    (h : optTest pyWs l.head? = false) : l.takeWhile pyWs = [] := by
  cases l with
  | nil => rfl
  | cons c rest =>
    simp only [List.head?_cons, optTest] at h
    rw [List.takeWhile_cons_of_neg (by simp [h])]

theorem WFb_tail (b : List Char) (bs : List (List Char)) (h : WFb (b :: bs)) : WFb bs :=
  fun x hx => h x (List.mem_cons_of_mem b hx)

theorem WFb_head (b : List Char) (bs : List (List Char)) (h : WFb (b :: bs)) :
    b ≠ [] ∧ ∀ c ∈ b, pyWs c = false :=
  h b (List.mem_cons_self b bs)

theorem WFb_merge_step (b b2 : List Char) (rest : List (List Char))
    (h : WFb (b :: b2 :: rest)) : WFb ((b ++ b2) :: rest) := by
  intro x hx
  rcases List.mem_cons.1 hx with h1 | h1
  · subst h1
    refine ⟨?_, ?_⟩
    · intro he
      rcases List.append_eq_nil.1 he with ⟨h2, -⟩
      exact (WFb_head b _ h).1 h2
    · intro c hc
      rcases List.mem_append.1 hc with h2 | h2
      · exact (WFb_head b _ h).2 c h2
      · exact (WFb_head b2 _ (WFb_tail b _ h)).2 c h2
  · exact h x (List.mem_cons_of_mem b (List.mem_cons_of_mem b2 h1))

theorem mergeBlocks_head_structure (cond : List Char → List Char → Bool) :
    ∀ (n : Nat) (bs : List (List Char)), bs.length ≤ n → ∀ b,
      ∃ e r, mergeBlocks cond (b :: bs) = (b ++ e) :: r := by
  intro n
  induction n with
  | zero =>
    intro bs hlen b
    have : bs = [] := List.length_eq_zero.1 (by omega)
    subst this
    exact ⟨[], [], by simp [mergeBlocks]⟩
  | succ n ih =>
    intro bs hlen b
    cases bs with
    | nil => exact ⟨[], [], by simp [mergeBlocks]⟩
    | cons b2 rest =>
      by_cases hc : cond b b2 = true
      · obtain ⟨e, r, he⟩ := ih rest (by simp at hlen; omega) (b ++ b2)
        refine ⟨b2 ++ e, r, ?_⟩
        rw [mergeBlocks, if_pos hc, he, List.append_assoc]
      · refine ⟨[], mergeBlocks cond (b2 :: rest), ?_⟩
        rw [mergeBlocks, if_neg hc, List.append_nil]

theorem mergeBlocks_ne_nil (cond : List Char → List Char → Bool)
    (b : List Char) (bs : List (List Char)) :
    mergeBlocks cond (b :: bs) ≠ [] := by
  obtain ⟨e, r, he⟩ := mergeBlocks_head_structure cond bs.length bs le_rfl b
  rw [he]
  simp

theorem mergeBlocks_WFb (cond : List Char → List Char → Bool) :
    ∀ (n : Nat) (bs : List (List Char)), bs.length ≤ n → WFb bs →
      WFb (mergeBlocks cond bs) := by
  intro n
  induction n with
  | zero =>
    intro bs hlen hwf
    have : bs = [] := List.length_eq_zero.1 (by omega)
    subst this
    simpa [mergeBlocks] using hwf
  | succ n ih =>
    intro bs hlen hwf
    cases bs with
    | nil => simpa [mergeBlocks] using hwf
    | cons b rest =>
      cases rest with
      | nil => simpa [mergeBlocks] using hwf
      | cons b2 rest2 =>
        by_cases hc : cond b b2 = true
        · rw [mergeBlocks, if_pos hc]
          exact ih _ (by simp at hlen ⊢; omega) (WFb_merge_step b b2 rest2 hwf)
        · rw [mergeBlocks, if_neg hc]
          intro x hx
          rcases List.mem_cons.1 hx with h1 | h1
          · rw [h1]; exact WFb_head b _ hwf
          · exact ih _ (by simp at hlen ⊢; omega) (WFb_tail b _ hwf) x h1

theorem merge_glue_front (cond : List Char → List Char → Bool)
    (hL : ∀ x y z, y ≠ [] → cond (x ++ y) z = cond y z) :
    ∀ (n : Nat) (rest : List (List Char)), rest.length ≤ n →
      ∀ (x y : List Char), y ≠ [] →
      glue (mergeBlocks cond ((x ++ y) :: rest)) =
        x ++ glue (mergeBlocks cond (y :: rest)) := by
  intro n
  induction n with
  | zero =>
    intro rest hlen x y hy
    have : rest = [] := List.length_eq_zero.1 (by omega)
    subst this
    simp [mergeBlocks, glue]
  | succ n ih =>
    intro rest hlen x y hy
    cases rest with
    | nil => simp [mergeBlocks, glue]
    | cons b3 r =>
      rw [mergeBlocks, mergeBlocks, hL x y b3 hy]
      by_cases hc : cond y b3 = true
      · rw [if_pos hc, if_pos hc, List.append_assoc]
        exact ih r (by simp at hlen; omega) x (y ++ b3) (by simp [hy])
      · rw [if_neg hc, if_neg hc]
        have hm := mergeBlocks_ne_nil cond b3 r
        rcases hmm : mergeBlocks cond (b3 :: r) with _ | ⟨m, ms⟩
        · cases hm hmm
        · rw [glue, glue, List.append_assoc]

theorem mergeBlocks_chain_self (cond : List Char → List Char → Bool)
    (hL : ∀ x y z, y ≠ [] → cond (x ++ y) z = cond y z)
    (hR : ∀ x y z, y ≠ [] → cond x (y ++ z) = cond x y) :
    ∀ (n : Nat) (bs : List (List Char)), bs.length ≤ n → WFb bs →
      List.Chain' (fun a b => cond a b = false) (mergeBlocks cond bs) := by
  intro n
  induction n with
  | zero =>
    intro bs hlen _
    have : bs = [] := List.length_eq_zero.1 (by omega)
    subst this
    simp [mergeBlocks]
  | succ n ih =>
    intro bs hlen hwf
    cases bs with
    | nil => simp [mergeBlocks]
    | cons b rest =>
      cases rest with
      | nil => simp [mergeBlocks]
      | cons b2 rest2 =>
        by_cases hc : cond b b2 = true
        · rw [mergeBlocks, if_pos hc]
          exact ih _ (by simp at hlen ⊢; omega) (WFb_merge_step b b2 rest2 hwf)
        · rw [mergeBlocks, if_neg hc]
          rw [List.chain'_cons']
          refine ⟨?_, ih _ (by simp at hlen ⊢; omega) (WFb_tail b _ hwf)⟩
          intro y hy
          obtain ⟨e, r, he⟩ := mergeBlocks_head_structure cond rest2.length rest2 le_rfl b2
          rw [he] at hy
          simp only [List.head?_cons, Option.mem_def, Option.some_inj] at hy
          rw [← hy] at *
          rw [hR b b2 e (WFb_head b2 _ (WFb_tail b _ hwf)).1]
          simpa using hc

theorem mergeBlocks_chain_pres (cond R : List Char → List Char → Bool)
    (hLR : ∀ x y z, y ≠ [] → R (x ++ y) z = R y z)
    (hRR : ∀ x y z, y ≠ [] → R x (y ++ z) = R x y) :
    ∀ (n : Nat) (bs : List (List Char)), bs.length ≤ n → WFb bs →
      List.Chain' (fun a b => R a b = false) bs →
      List.Chain' (fun a b => R a b = false) (mergeBlocks cond bs) := by
  intro n
  induction n with
  | zero =>
    intro bs hlen _ _
    have : bs = [] := List.length_eq_zero.1 (by omega)
    subst this
    simp [mergeBlocks]
  | succ n ih =>
    intro bs hlen hwf hch
    cases bs with
    | nil => simp [mergeBlocks]
    | cons b rest =>
      cases rest with
      | nil => simp [mergeBlocks]
      | cons b2 rest2 =>
        by_cases hc : cond b b2 = true
        · rw [mergeBlocks, if_pos hc]
          apply ih _ (by simp at hlen ⊢; omega) (WFb_merge_step b b2 rest2 hwf)
          rw [List.chain'_cons']
          have hch2 := hch.tail
          simp only [List.tail_cons] at hch2
          rw [List.chain'_cons'] at hch2
          refine ⟨?_, hch2.2⟩
          intro y hy
          rw [hLR b b2 y (WFb_head b2 _ (WFb_tail b _ hwf)).1]
          exact hch2.1 y hy
        · rw [mergeBlocks, if_neg hc]
          rw [List.chain'_cons']
          refine ⟨?_, ih _ (by simp at hlen ⊢; omega) (WFb_tail b _ hwf) hch.tail⟩
          intro y hy
          obtain ⟨e, r, he⟩ := mergeBlocks_head_structure cond rest2.length rest2 le_rfl b2
          rw [he] at hy
          simp only [List.head?_cons, Option.mem_def, Option.some_inj] at hy
          rw [← hy]
          rw [hRR b b2 e (WFb_head b2 _ (WFb_tail b _ hwf)).1]
          rw [List.chain'_cons'] at hch
          exact hch.1 b2 rfl

theorem mergeBlocks_id (cond : List Char → List Char → Bool) :
    ∀ (n : Nat) (bs : List (List Char)), bs.length ≤ n →
      List.Chain' (fun a b => cond a b = false) bs →
      mergeBlocks cond bs = bs := by
  intro n
  induction n with
  | zero =>
    intro bs hlen _
    have : bs = [] := List.length_eq_zero.1 (by omega)
    subst this
    simp [mergeBlocks]
  | succ n ih =>
    intro bs hlen hch
    cases bs with
    | nil => simp [mergeBlocks]
    | cons b rest =>
      cases rest with
      | nil => simp [mergeBlocks]
      | cons b2 rest2 =>
        rw [List.chain'_cons'] at hch
        have hc : cond b b2 = false := hch.1 b2 rfl
        rw [mergeBlocks, if_neg (by simp [hc])]
        rw [ih _ (by simp at hlen ⊢; omega) hch.2]

/- ---------- scanner correspondence: delWsBetween ---------- -/

theorem delWsBetween_block (pre post : Char → Bool) :
    ∀ (b : List Char), b ≠ [] → (∀ c ∈ b, pyWs c = false) →
      ∀ (prev : Option Char) (rest : List Char),
      delWsBetween pre post prev (b ++ rest) =
        b ++ delWsBetween pre post (some (lastD b)) rest := by
  intro b
  induction b with
  | nil => intro h; cases h rfl
  | cons c cs ih =>
    intro _ hnw prev rest
    have hc : pyWs c = false := hnw c (by simp)
    rw [List.cons_append, delWsBetween, if_neg (by simp [hc])]
    cases cs with
    | nil =>
      simp [delWsBetween, lastD]
    | cons d ds =>
      rw [ih (by simp) (fun x hx => hnw x (List.mem_cons_of_mem c hx)) (some c) rest]
      have : lastD (c :: d :: ds) = lastD (d :: ds) := by
        unfold lastD
        rw [List.getLastD_eq_getLast?, List.getLastD_eq_getLast?]
        rw [show c :: d :: ds = [c] ++ (d :: ds) by rfl]
        rw [List.getLast?_append_of_ne_nil [c] (by simp)]
      rw [this]
      simp

theorem delWsBetween_glue (pre post : Char → Bool) :
    ∀ (bs : List (List Char)), WFb bs → ∀ prev,
      delWsBetween pre post prev (glue bs) =
        glue (mergeBlocks (condBetween pre post) bs) := by
  intro bs
  induction bs with
  | nil => intro _ prev; simp [glue, mergeBlocks, delWsBetween]
  | cons b rest ih =>
    intro hwf prev
    obtain ⟨hbne, hbnw⟩ := WFb_head b rest hwf
    cases rest with
    | nil =>
      simp only [glue, mergeBlocks]
      rw [show b = b ++ [] by simp] at *
      rw [delWsBetween_block pre post _ (by simpa using hbne) (by simpa using hbnw)]
      simp [delWsBetween]
    | cons b2 rest2 =>
      obtain ⟨hb2ne, -⟩ := WFb_head b2 rest2 (WFb_tail b _ hwf)
      rw [glue_cons b (b2 :: rest2) (by simp)]
      rw [delWsBetween_block pre post b hbne hbnw]
      rw [delWsBetween]
      rw [if_pos (by decide)]
      have hgh : (glue (b2 :: rest2)).head? = some (headD b2) :=
        glue_head b2 rest2 hb2ne
      have hghw : optTest pyWs (glue (b2 :: rest2)).head? = false := by
        rw [hgh]
        simpa [optTest] using (WFb_head b2 rest2 (WFb_tail b _ hwf)).2 (headD b2)
          (by cases b2 with
              | nil => cases hb2ne rfl
              | cons h t => simp [headD])
      rw [takeWhile_nonws_head _ hghw, dropWhile_nonws_head _ hghw]
      simp only [hgh, optTest]
      rw [show (pre (lastD b) && post (headD b2)) = condBetween pre post b b2 from rfl]
      by_cases hc : condBetween pre post b b2 = true
      · rw [if_pos hc]
        rw [mergeBlocks, if_pos hc]
        rw [ih (WFb_tail b _ hwf) (some ' ')]
        rw [← merge_glue_front (condBetween pre post)
          (fun x y z hy => by unfold condBetween; rw [lastD_append x y hy])
          rest2.length rest2 le_rfl b b2 hb2ne]
      · rw [if_neg hc]
        rw [mergeBlocks, if_neg hc]
        rw [ih (WFb_tail b _ hwf) (some ' ')]
        have hm := mergeBlocks_ne_nil (condBetween pre post) b2 rest2
        rw [glue_cons b _ hm]
        simp

/- ---------- scanner correspondence: delWsBefore ---------- -/

theorem delWsBefore_block (post : Char → Bool) :
    ∀ (x : List Char), (∀ c ∈ x, pyWs c = false) → ∀ (rest : List Char),
      delWsBefore post (x ++ rest) = x ++ delWsBefore post rest := by
  intro x
  induction x with
  | nil => intro _ rest; simp
  | cons c cs ih =>
    intro hnw rest
    have hc : pyWs c = false := hnw c (by simp)
    rw [List.cons_append, delWsBefore, if_neg (by simp [hc])]
    rw [ih (fun y hy => hnw y (List.mem_cons_of_mem c hy)) rest]
    simp

theorem delWsBefore_glue (post : Char → Bool) :
    ∀ (bs : List (List Char)), WFb bs →
      delWsBefore post (glue bs) = glue (mergeBlocks (condBefore post) bs) := by
  intro bs
  induction bs with
  | nil => simp [glue, mergeBlocks, delWsBefore]
  | cons b rest ih =>
    intro hwf
    obtain ⟨hbne, hbnw⟩ := WFb_head b rest hwf
    cases rest with
    | nil =>
      simp only [glue, mergeBlocks]
      rw [show b = b ++ [] by simp] at *
      rw [delWsBefore_block post _ (by simpa using hbnw)]
      simp [delWsBefore]
    | cons b2 rest2 =>
      obtain ⟨hb2ne, hb2nw⟩ := WFb_head b2 rest2 (WFb_tail b _ hwf)
      rw [glue_cons b (b2 :: rest2) (by simp)]
      rw [delWsBefore_block post b hbnw]
      rw [delWsBefore]
      rw [if_pos (by decide)]
      have hgh : (glue (b2 :: rest2)).head? = some (headD b2) :=
        glue_head b2 rest2 hb2ne
      have hhd : pyWs (headD b2) = false := by
        refine hb2nw (headD b2) ?_
        cases b2 with
        | nil => cases hb2ne rfl
        | cons h t => simp [headD]
      have hghw : optTest pyWs (glue (b2 :: rest2)).head? = false := by
        rw [hgh]; simpa [optTest] using hhd
      rw [takeWhile_nonws_head _ hghw, dropWhile_nonws_head _ hghw]
      simp only [hgh]
      rw [show post (headD b2) = condBefore post b b2 from rfl]
      by_cases hc : condBefore post b b2 = true
      · rw [if_pos hc]
        rw [mergeBlocks, if_pos hc]
        rw [glue_cons_eq b2 rest2 hb2ne]
        simp only [List.tail_cons]
        rw [delWsBefore_block post b2.tail
          (fun y hy => hb2nw y (List.mem_of_mem_tail hy))]
        have hih := ih (WFb_tail b _ hwf)
        rw [glue_cons_eq b2 rest2 hb2ne] at hih
        rw [delWsBefore, if_neg (by simp [hhd])] at hih
        rw [delWsBefore_block post b2.tail
          (fun y hy => hb2nw y (List.mem_of_mem_tail hy))] at hih
        rw [hih]
        rw [← merge_glue_front (condBefore post)
          (fun x y z hy => rfl) rest2.length rest2 le_rfl b b2 hb2ne]
      · rw [if_neg hc]
        rw [mergeBlocks, if_neg hc]
        rw [ih (WFb_tail b _ hwf)]
        have hm := mergeBlocks_ne_nil (condBefore post) b2 rest2
        rw [glue_cons b _ hm]
        simp

/- ---------- scanner correspondence: delWsAfterOpen ---------- -/

theorem delWsAfterOpen_nonws (isOpen : Char → Bool) :
    ∀ (b : List Char), (∀ c ∈ b, pyWs c = false) →
      delWsAfterOpen isOpen b = b := by
  intro b
  induction b with
  | nil => simp [delWsAfterOpen]
  | cons c cs ih =>
    intro hnw
    have hcs : optTest pyWs cs.head? = false := by
      cases cs with
      | nil => rfl
      | cons d ds => simpa [optTest] using hnw d (by simp)
    rw [delWsAfterOpen, if_neg (by simp [hcs])]
    rw [ih (fun y hy => hnw y (List.mem_cons_of_mem c hy))]

theorem delWsAfterOpen_sep (isOpen : Char → Bool) (hsp : isOpen ' ' = false) :
    ∀ (b : List Char), b ≠ [] → (∀ c ∈ b, pyWs c = false) →
      ∀ (r : List Char), optTest pyWs r.head? = false →
      delWsAfterOpen isOpen (b ++ ' ' :: r) =
        if isOpen (lastD b) then b ++ delWsAfterOpen isOpen r
        else b ++ ' ' :: delWsAfterOpen isOpen r := by
  intro b
  induction b with
  | nil => intro h; cases h rfl
  | cons c cs ih =>
    intro _ hnw r hr
    cases cs with
    | nil =>
      simp only [List.cons_append, List.nil_append]
      rw [delWsAfterOpen]
      simp only [List.head?_cons, optTest, show pyWs ' ' = true from by decide,
        Bool.and_true]
      by_cases hc : isOpen c = true
      · rw [if_pos hc]
        rw [List.dropWhile_cons_of_pos (by decide)]
        rw [dropWhile_nonws_head _ hr]
        rw [show lastD [c] = c from rfl, if_pos hc]
      · rw [if_neg hc]
        rw [show lastD [c] = c from rfl, if_neg hc]
        rw [delWsAfterOpen]
        rw [if_neg (by simp [hsp])]
    | cons d ds =>
      have hd : pyWs d = false := hnw d (by simp)
      rw [List.cons_append, delWsAfterOpen]
      rw [if_neg (by simp [List.cons_append, optTest, hd])]
      rw [ih (by simp) (fun y hy => hnw y (List.mem_cons_of_mem c hy)) r hr]
      have hl : lastD (c :: d :: ds) = lastD (d :: ds) := by
        unfold lastD
        rw [List.getLastD_eq_getLast?, List.getLastD_eq_getLast?]
        rw [show c :: d :: ds = [c] ++ (d :: ds) by rfl]
        rw [List.getLast?_append_of_ne_nil [c] (by simp)]
      rw [hl]
      by_cases hc : isOpen (lastD (d :: ds)) = true
      · rw [if_pos hc, if_pos hc]; rfl
      · rw [if_neg hc, if_neg hc]; rfl

theorem delWsAfterOpen_glue (isOpen : Char → Bool) (hsp : isOpen ' ' = false) :
    ∀ (bs : List (List Char)), WFb bs →
      delWsAfterOpen isOpen (glue bs) =
        glue (mergeBlocks (condAfterOpen isOpen) bs) := by
  intro bs
  induction bs with
  | nil => simp [glue, mergeBlocks, delWsAfterOpen]
  | cons b rest ih =>
    intro hwf
    obtain ⟨hbne, hbnw⟩ := WFb_head b rest hwf
    cases rest with
    | nil =>
      simp only [glue, mergeBlocks]
      exact delWsAfterOpen_nonws isOpen b hbnw
    | cons b2 rest2 =>
      obtain ⟨hb2ne, hb2nw⟩ := WFb_head b2 rest2 (WFb_tail b _ hwf)
      rw [glue_cons b (b2 :: rest2) (by simp)]
      have hhd2 : pyWs (headD b2) = false := by
        refine hb2nw (headD b2) ?_
        cases b2 with
        | nil => cases hb2ne rfl
        | cons h t => simp [headD]
      have hghw : optTest pyWs (glue (b2 :: rest2)).head? = false := by
        rw [glue_head b2 rest2 hb2ne]; simpa [optTest] using hhd2
      rw [delWsAfterOpen_sep isOpen hsp b hbne hbnw _ hghw]
      rw [show isOpen (lastD b) = condAfterOpen isOpen b b2 from rfl]
      by_cases hc : condAfterOpen isOpen b b2 = true
      · rw [if_pos hc]
        rw [mergeBlocks, if_pos hc]
        rw [ih (WFb_tail b _ hwf)]
        rw [← merge_glue_front (condAfterOpen isOpen)
          (fun x y z hy => by unfold condAfterOpen; rw [lastD_append x y hy])
          rest2.length rest2 le_rfl b b2 hb2ne]
      · rw [if_neg hc]
        rw [mergeBlocks, if_neg hc]
        rw [ih (WFb_tail b _ hwf)]
        have hm := mergeBlocks_ne_nil (condAfterOpen isOpen) b2 rest2
        rw [glue_cons b _ hm]

/- ---------- collapse and strip fix glued strings ---------- -/

theorem collapse_nonws_run :
    ∀ (x : List Char), (∀ c ∈ x, pyWs c = false) → ∀ (r : List Char),
      collapseWs (x ++ r) = x ++ collapseWs r := by
  intro x
  induction x with
  | nil => intro _ r; simp
  | cons c cs ih =>
    intro hnw r
    have hc : pyWs c = false := hnw c (by simp)
    rw [List.cons_append, collapseWs, if_neg (by simp [hc])]
    rw [ih (fun y hy => hnw y (List.mem_cons_of_mem c hy)) r]
    simp

theorem collapse_glue :
    ∀ (bs : List (List Char)), WFb bs → collapseWs (glue bs) = glue bs := by
  intro bs
  induction bs with
  | nil => simp [glue, collapseWs]
  | cons b rest ih =>
    intro hwf
    obtain ⟨hbne, hbnw⟩ := WFb_head b rest hwf
    cases rest with
    | nil =>
      simp only [glue]
      rw [show b = b ++ [] by simp] at *
      rw [collapse_nonws_run _ (by simpa using hbnw)]
      simp [collapseWs]
    | cons b2 rest2 =>
      obtain ⟨hb2ne, hb2nw⟩ := WFb_head b2 rest2 (WFb_tail b _ hwf)
      rw [glue_cons b (b2 :: rest2) (by simp)]
      rw [collapse_nonws_run b hbnw]
      rw [collapseWs, if_pos (by decide)]
      have hhd2 : pyWs (headD b2) = false := by
        refine hb2nw (headD b2) ?_
        cases b2 with
        | nil => cases hb2ne rfl
        | cons h t => simp [headD]
      have hghw : optTest pyWs (glue (b2 :: rest2)).head? = false := by
        rw [glue_head b2 rest2 hb2ne]; simpa [optTest] using hhd2
      rw [dropWhile_nonws_head _ hghw]
      rw [ih (WFb_tail b _ hwf)]

theorem glue_head_nonws (bs : List (List Char)) (hwf : WFb bs) :
    optTest pyWs (glue bs).head? = false := by
  cases bs with
  | nil => rfl
  | cons b rest =>
    obtain ⟨hbne, hbnw⟩ := WFb_head b rest hwf
    rw [glue_head b rest hbne]
    have : pyWs (headD b) = false := by
      refine hbnw (headD b) ?_
      cases b with
      | nil => cases hbne rfl
      | cons h t => simp [headD]
    simpa [optTest] using this

theorem glue_last_nonws :
    ∀ (bs : List (List Char)), WFb bs → ∀ d, (glue bs).getLast? = some d →
      pyWs d = false := by
  intro bs
  induction bs with
  | nil => intro _ d h; simp [glue] at h
  | cons b rest ih =>
    intro hwf d h
    obtain ⟨hbne, hbnw⟩ := WFb_head b rest hwf
    cases rest with
    | nil =>
      simp only [glue] at h
      obtain ⟨hne, rfl⟩ := List.mem_getLast?_eq_getLast (by rw [h]; rfl)
      exact hbnw _ (List.getLast_mem hne)
    | cons b2 rest2 =>
      obtain ⟨hb2ne, -⟩ := WFb_head b2 rest2 (WFb_tail b _ hwf)
      rw [glue_cons b (b2 :: rest2) (by simp)] at h
      rw [List.getLast?_append_of_ne_nil b (by simp)] at h
      rw [show ' ' :: glue (b2 :: rest2) = [' '] ++ glue (b2 :: rest2) from rfl] at h
      rw [List.getLast?_append_of_ne_nil [' '] (glue_ne_nil b2 rest2 hb2ne)] at h
      exact ih (WFb_tail b _ hwf) d h

theorem strip_glue (bs : List (List Char)) (hwf : WFb bs) :
    stripWs (glue bs) = glue bs := by
  unfold stripWs
  rw [dropWhile_nonws_head _ (glue_head_nonws bs hwf)]
  have h2 : optTest pyWs (glue bs).reverse.head? = false := by
    rw [List.head?_reverse]
    rcases hgl : (glue bs).getLast? with _ | d
    · rfl
    · simpa [optTest] using glue_last_nonws bs hwf d hgl
  rw [dropWhile_nonws_head _ h2, List.reverse_reverse]

/- ---------- determinedness of the six separator conditions ---------- -/

theorem condBetween_L (pre post : Char → Bool) (x y z : List Char) (hy : y ≠ []) :
    condBetween pre post (x ++ y) z = condBetween pre post y z := by
  unfold condBetween
  rw [lastD_append x y hy]

theorem condBetween_R (pre post : Char → Bool) (x y z : List Char) (hy : y ≠ []) :
    condBetween pre post x (y ++ z) = condBetween pre post x y := by
  unfold condBetween
  rw [headD_append y z hy]

theorem condBefore_R (post : Char → Bool) (x y z : List Char) (hy : y ≠ []) :
    condBefore post x (y ++ z) = condBefore post x y := by
  unfold condBefore
  rw [headD_append y z hy]

theorem condAfterOpen_L (isOpen : Char → Bool) (x y z : List Char) (hy : y ≠ []) :
    condAfterOpen isOpen (x ++ y) z = condAfterOpen isOpen y z := by
  unfold condAfterOpen
  rw [lastD_append x y hy]

theorem condBefore_L (post : Char → Bool) (x y z : List Char) (hy : y ≠ []) :
    condBefore post (x ++ y) z = condBefore post y z := rfl

theorem condAfterOpen_R (isOpen : Char → Bool) (x y z : List Char) (hy : y ≠ []) :
    condAfterOpen isOpen x (y ++ z) = condAfterOpen isOpen x y := rfl

/- ---------- assembling normalize_dialogue_text ---------- -/

theorem normalize_eq (t : List Char) (ht : t ≠ []) :
    normalize_dialogue_text t =
      delWsBefore closeBracketCh (delWsAfterOpen openBracketCh (delWsBefore closePunct
        (delWsBetween asciiAlnum cjkChar none (delWsBetween cjkChar asciiAlnum none
          (delWsBetween cjkNum cjkNum none (stripWs (collapseWs t))))))) := by
  rw [normalize_dialogue_text, if_neg ht]

theorem normalize_structure (t : List Char) (ht : t ≠ []) :
    ∃ bs, WFb bs ∧ normalize_dialogue_text t = glue bs ∧
      List.Chain' (fun a b => condBetween cjkNum cjkNum a b = false) bs ∧
      List.Chain' (fun a b => condBetween cjkChar asciiAlnum a b = false) bs ∧
      List.Chain' (fun a b => condBetween asciiAlnum cjkChar a b = false) bs ∧
      List.Chain' (fun a b => condBefore closePunct a b = false) bs ∧
      List.Chain' (fun a b => condAfterOpen openBracketCh a b = false) bs ∧
      List.Chain' (fun a b => condBefore closeBracketCh a b = false) bs := by
  obtain ⟨bs0, hwf0, heq0⟩ := canon_strip_collapse t
  obtain ⟨bs1, hwf1, heq1, hch1_1⟩ :
      ∃ bs1, WFb bs1 ∧ delWsBetween cjkNum cjkNum none (glue bs0) = glue bs1 ∧
        List.Chain' (fun a b => condBetween cjkNum cjkNum a b = false) bs1 :=
    ⟨mergeBlocks (condBetween cjkNum cjkNum) bs0,
      mergeBlocks_WFb _ bs0.length bs0 le_rfl hwf0,
      delWsBetween_glue cjkNum cjkNum bs0 hwf0 none,
      mergeBlocks_chain_self _ (condBetween_L cjkNum cjkNum)
        (condBetween_R cjkNum cjkNum) bs0.length bs0 le_rfl hwf0⟩
  obtain ⟨bs2, hwf2, heq2, hch2_1, hch2_2⟩ :
      ∃ bs2, WFb bs2 ∧ delWsBetween cjkChar asciiAlnum none (glue bs1) = glue bs2 ∧
        List.Chain' (fun a b => condBetween cjkNum cjkNum a b = false) bs2 ∧
        List.Chain' (fun a b => condBetween cjkChar asciiAlnum a b = false) bs2 :=
    ⟨mergeBlocks (condBetween cjkChar asciiAlnum) bs1,
      mergeBlocks_WFb _ bs1.length bs1 le_rfl hwf1,
      delWsBetween_glue cjkChar asciiAlnum bs1 hwf1 none,
      mergeBlocks_chain_pres _ _ (condBetween_L cjkNum cjkNum)
        (condBetween_R cjkNum cjkNum) bs1.length bs1 le_rfl hwf1 hch1_1,
      mergeBlocks_chain_self _ (condBetween_L cjkChar asciiAlnum)
        (condBetween_R cjkChar asciiAlnum) bs1.length bs1 le_rfl hwf1⟩
  obtain ⟨bs3, hwf3, heq3, hch3_1, hch3_2, hch3_3⟩ :
      ∃ bs3, WFb bs3 ∧ delWsBetween asciiAlnum cjkChar none (glue bs2) = glue bs3 ∧
        List.Chain' (fun a b => condBetween cjkNum cjkNum a b = false) bs3 ∧
        List.Chain' (fun a b => condBetween cjkChar asciiAlnum a b = false) bs3 ∧
        List.Chain' (fun a b => condBetween asciiAlnum cjkChar a b = false) bs3 :=
    ⟨mergeBlocks (condBetween asciiAlnum cjkChar) bs2,
      mergeBlocks_WFb _ bs2.length bs2 le_rfl hwf2,
      delWsBetween_glue asciiAlnum cjkChar bs2 hwf2 none,
      mergeBlocks_chain_pres _ _ (condBetween_L cjkNum cjkNum)
        (condBetween_R cjkNum cjkNum) bs2.length bs2 le_rfl hwf2 hch2_1,
      mergeBlocks_chain_pres _ _ (condBetween_L cjkChar asciiAlnum)
        (condBetween_R cjkChar asciiAlnum) bs2.length bs2 le_rfl hwf2 hch2_2,
      mergeBlocks_chain_self _ (condBetween_L asciiAlnum cjkChar)
        (condBetween_R asciiAlnum cjkChar) bs2.length bs2 le_rfl hwf2⟩
  obtain ⟨bs4, hwf4, heq4, hch4_1, hch4_2, hch4_3, hch4_4⟩ :
      ∃ bs4, WFb bs4 ∧ delWsBefore closePunct (glue bs3) = glue bs4 ∧
        List.Chain' (fun a b => condBetween cjkNum cjkNum a b = false) bs4 ∧
        List.Chain' (fun a b => condBetween cjkChar asciiAlnum a b = false) bs4 ∧
        List.Chain' (fun a b => condBetween asciiAlnum cjkChar a b = false) bs4 ∧
        List.Chain' (fun a b => condBefore closePunct a b = false) bs4 :=
    ⟨mergeBlocks (condBefore closePunct) bs3,
      mergeBlocks_WFb _ bs3.length bs3 le_rfl hwf3,
      delWsBefore_glue closePunct bs3 hwf3,
      mergeBlocks_chain_pres _ _ (condBetween_L cjkNum cjkNum)
        (condBetween_R cjkNum cjkNum) bs3.length bs3 le_rfl hwf3 hch3_1,
      mergeBlocks_chain_pres _ _ (condBetween_L cjkChar asciiAlnum)
        (condBetween_R cjkChar asciiAlnum) bs3.length bs3 le_rfl hwf3 hch3_2,
      mergeBlocks_chain_pres _ _ (condBetween_L asciiAlnum cjkChar)
        (condBetween_R asciiAlnum cjkChar) bs3.length bs3 le_rfl hwf3 hch3_3,
      mergeBlocks_chain_self _ (condBefore_L closePunct)
        (condBefore_R closePunct) bs3.length bs3 le_rfl hwf3⟩
  obtain ⟨bs5, hwf5, heq5, hch5_1, hch5_2, hch5_3, hch5_4, hch5_5⟩ :
      ∃ bs5, WFb bs5 ∧ delWsAfterOpen openBracketCh (glue bs4) = glue bs5 ∧
        List.Chain' (fun a b => condBetween cjkNum cjkNum a b = false) bs5 ∧
        List.Chain' (fun a b => condBetween cjkChar asciiAlnum a b = false) bs5 ∧
        List.Chain' (fun a b => condBetween asciiAlnum cjkChar a b = false) bs5 ∧
        List.Chain' (fun a b => condBefore closePunct a b = false) bs5 ∧
        List.Chain' (fun a b => condAfterOpen openBracketCh a b = false) bs5 :=
    ⟨mergeBlocks (condAfterOpen openBracketCh) bs4,
      mergeBlocks_WFb _ bs4.length bs4 le_rfl hwf4,
      delWsAfterOpen_glue openBracketCh (by decide) bs4 hwf4,
      mergeBlocks_chain_pres _ _ (condBetween_L cjkNum cjkNum)
        (condBetween_R cjkNum cjkNum) bs4.length bs4 le_rfl hwf4 hch4_1,
      mergeBlocks_chain_pres _ _ (condBetween_L cjkChar asciiAlnum)
        (condBetween_R cjkChar asciiAlnum) bs4.length bs4 le_rfl hwf4 hch4_2,
      mergeBlocks_chain_pres _ _ (condBetween_L asciiAlnum cjkChar)
        (condBetween_R asciiAlnum cjkChar) bs4.length bs4 le_rfl hwf4 hch4_3,
      mergeBlocks_chain_pres _ _ (condBefore_L closePunct)
        (condBefore_R closePunct) bs4.length bs4 le_rfl hwf4 hch4_4,
      mergeBlocks_chain_self _ (condAfterOpen_L openBracketCh)
        (condAfterOpen_R openBracketCh) bs4.length bs4 le_rfl hwf4⟩
  obtain ⟨bs6, hwf6, heq6, hch6_1, hch6_2, hch6_3, hch6_4, hch6_5, hch6_6⟩ :
      ∃ bs6, WFb bs6 ∧ delWsBefore closeBracketCh (glue bs5) = glue bs6 ∧
        List.Chain' (fun a b => condBetween cjkNum cjkNum a b = false) bs6 ∧
        List.Chain' (fun a b => condBetween cjkChar asciiAlnum a b = false) bs6 ∧
        List.Chain' (fun a b => condBetween asciiAlnum cjkChar a b = false) bs6 ∧
        List.Chain' (fun a b => condBefore closePunct a b = false) bs6 ∧
        List.Chain' (fun a b => condAfterOpen openBracketCh a b = false) bs6 ∧
        List.Chain' (fun a b => condBefore closeBracketCh a b = false) bs6 :=
    ⟨mergeBlocks (condBefore closeBracketCh) bs5,
      mergeBlocks_WFb _ bs5.length bs5 le_rfl hwf5,
      delWsBefore_glue closeBracketCh bs5 hwf5,
      mergeBlocks_chain_pres _ _ (condBetween_L cjkNum cjkNum)
        (condBetween_R cjkNum cjkNum) bs5.length bs5 le_rfl hwf5 hch5_1,
      mergeBlocks_chain_pres _ _ (condBetween_L cjkChar asciiAlnum)
        (condBetween_R cjkChar asciiAlnum) bs5.length bs5 le_rfl hwf5 hch5_2,
      mergeBlocks_chain_pres _ _ (condBetween_L asciiAlnum cjkChar)
        (condBetween_R asciiAlnum cjkChar) bs5.length bs5 le_rfl hwf5 hch5_3,
      mergeBlocks_chain_pres _ _ (condBefore_L closePunct)
        (condBefore_R closePunct) bs5.length bs5 le_rfl hwf5 hch5_4,
      mergeBlocks_chain_pres _ _ (condAfterOpen_L openBracketCh)
        (condAfterOpen_R openBracketCh) bs5.length bs5 le_rfl hwf5 hch5_5,
      mergeBlocks_chain_self _ (condBefore_L closeBracketCh)
        (condBefore_R closeBracketCh) bs5.length bs5 le_rfl hwf5⟩
  refine ⟨bs6, hwf6, ?_, hch6_1, hch6_2, hch6_3, hch6_4, hch6_5, hch6_6⟩
  rw [normalize_eq t ht, heq0, heq1, heq2, heq3, heq4, heq5, heq6]

theorem normalize_glue_fixed (bs : List (List Char)) (hwf : WFb bs)
    (h1 : List.Chain' (fun a b => condBetween cjkNum cjkNum a b = false) bs)
    (h2 : List.Chain' (fun a b => condBetween cjkChar asciiAlnum a b = false) bs)
    (h3 : List.Chain' (fun a b => condBetween asciiAlnum cjkChar a b = false) bs)
    (h4 : List.Chain' (fun a b => condBefore closePunct a b = false) bs)
    (h5 : List.Chain' (fun a b => condAfterOpen openBracketCh a b = false) bs)
    (h6 : List.Chain' (fun a b => condBefore closeBracketCh a b = false) bs) :
    normalize_dialogue_text (glue bs) = glue bs := by
  by_cases hg : glue bs = []
  · rw [hg]
    simp [normalize_dialogue_text]
  · rw [normalize_eq _ hg]
    rw [collapse_glue bs hwf, strip_glue bs hwf]
    rw [delWsBetween_glue cjkNum cjkNum bs hwf none,
        mergeBlocks_id _ bs.length bs le_rfl h1]
    rw [delWsBetween_glue cjkChar asciiAlnum bs hwf none,
        mergeBlocks_id _ bs.length bs le_rfl h2]
    rw [delWsBetween_glue asciiAlnum cjkChar bs hwf none,
        mergeBlocks_id _ bs.length bs le_rfl h3]
    rw [delWsBefore_glue closePunct bs hwf,
        mergeBlocks_id _ bs.length bs le_rfl h4]
    rw [delWsAfterOpen_glue openBracketCh (by decide) bs hwf,
        mergeBlocks_id _ bs.length bs le_rfl h5]
    rw [delWsBefore_glue closeBracketCh bs hwf,
        mergeBlocks_id _ bs.length bs le_rfl h6]

/-- C5: normalize_dialogue_text is idempotent — running the dialogue
normalization (whitespace collapse and strip followed by the six
whitespace-deletion passes of script_generator.py lines 41-51) a second
time over its own output changes nothing. -/
theorem claim_C5_idempotent (t : List Char) :
    normalize_dialogue_text (normalize_dialogue_text t) = normalize_dialogue_text t := by
  by_cases ht : t = []
  · subst ht
    simp [normalize_dialogue_text]
  · obtain ⟨bs, hwf, heq, h1, h2, h3, h4, h5, h6⟩ := normalize_structure t ht
    rw [heq]
    exact normalize_glue_fixed bs hwf h1 h2 h3 h4 h5 h6

/- ---------- stripSkip over chunk/span alternations (claim C1) ---------- -/

theorem skipOpen_head (c : Char) (hc : c ≠ '<') (X : List Char) :
    skipOpen.isPrefixOf (c :: X) = false := by
  rw [show skipOpen = '<' :: "skip>".data from rfl]
  simp only [List.isPrefixOf]
  have h1 : ('<' == c) = false := beq_eq_false_iff_ne.2 (fun h => hc h.symm)
  rw [h1, Bool.false_and]

theorem skipClose_head (c : Char) (hc : c ≠ '<') (X : List Char) :
    skipClose.isPrefixOf (c :: X) = false := by
  rw [show skipClose = '<' :: "/skip>".data from rfl]
  simp only [List.isPrefixOf]
  have h1 : ('<' == c) = false := beq_eq_false_iff_ne.2 (fun h => hc h.symm)
  rw [h1, Bool.false_and]

theorem stripSkipGo_chunk :
    ∀ (a : List Char), (∀ c ∈ a, c ≠ '<') → ∀ (rest : List Char),
      stripSkipGo (a ++ rest) = a ++ stripSkipGo rest := by
  intro a
  induction a with
  | nil => intro _ rest; simp
  | cons c cs ih =>
    intro hlt rest
    have hc : c ≠ '<' := hlt c (by simp)
    rw [List.cons_append, stripSkipGo]
    rw [if_neg (by simp [skipOpen_head c hc])]
    rw [ih (fun y hy => hlt y (List.mem_cons_of_mem c hy)) rest]
    rfl

theorem containsSub_append_mid (pat : List Char) :
    ∀ (u v : List Char), containsSub pat (u ++ (pat ++ v)) = true := by
  intro u
  induction u with
  | nil =>
    intro v
    cases hp : pat ++ v with
    | nil =>
      rcases List.append_eq_nil.1 hp with ⟨h1, -⟩
      simp [containsSub, h1, List.isEmpty]
    | cons c r =>
      simp only [List.nil_append, hp, containsSub]
      rw [← hp, isPrefixOf_self_append]
      simp
  | cons c cs ih =>
    intro v
    rw [List.cons_append, containsSub]
    rw [ih v]
    simp

theorem stripSkipSpan_w :
    ∀ (w : List Char), (∀ c ∈ w, c ≠ '<') → ∀ (rest : List Char),
      stripSkipSpan (w ++ (skipClose ++ rest)) = stripSkipGo (rest) := by
  intro w
  induction w with
  | nil =>
    intro _ rest
    rw [List.nil_append]
    rw [show skipClose ++ rest = '<' :: ("/skip>".data ++ rest) from rfl]
    rw [stripSkipSpan]
    rw [show '<' :: ("/skip>".data ++ rest) = skipClose ++ rest from rfl]
    rw [if_pos (isPrefixOf_self_append skipClose rest)]
    rw [show (skipClose ++ rest).drop 7 = rest from List.drop_left skipClose rest]
  | cons c cs ih =>
    intro hlt rest
    have hc : c ≠ '<' := hlt c (by simp)
    rw [List.cons_append, stripSkipSpan]
    rw [if_neg (by simp [skipClose_head c hc])]
    exact ih (fun y hy => hlt y (List.mem_cons_of_mem c hy)) rest

theorem stripSkipGo_span (w : List Char) (hw : ∀ c ∈ w, c ≠ '<') (rest : List Char) :
    stripSkipGo (skipOpen ++ (w ++ (skipClose ++ rest))) = stripSkipGo rest := by
  rw [show skipOpen ++ (w ++ (skipClose ++ rest)) =
      '<' :: ("skip>".data ++ (w ++ (skipClose ++ rest))) from rfl]
  rw [stripSkipGo]
  rw [if_pos ?hcond3]
  case hcond3 =>
    rw [show '<' :: ("skip>".data ++ (w ++ (skipClose ++ rest))) =
        skipOpen ++ (w ++ (skipClose ++ rest)) from rfl]
    rw [isPrefixOf_self_append]
    rw [show (skipOpen ++ (w ++ (skipClose ++ rest))).drop 6 = w ++ (skipClose ++ rest)
      from List.drop_left skipOpen _]
    rw [containsSub_append_mid]
    rfl
  rw [show ('<' :: ("skip>".data ++ (w ++ (skipClose ++ rest)))).drop 6 =
      w ++ (skipClose ++ rest) from List.drop_left skipOpen _]
  exact stripSkipSpan_w w hw rest

theorem stripSkip_SChain : ∀ (s : List Char), SChain s →
    lettersFree (stripSkipGo s) = true := by
  intro s hs
  induction hs with
  | last a ha hlt =>
    have h := stripSkipGo_chunk a hlt []
    simp only [List.append_nil] at h
    rw [h]
    simpa [stripSkipGo] using ha
  | cons a w rest ha hlt hw hrest ih =>
    rw [show a ++ skipOpen ++ w ++ skipClose ++ rest =
        a ++ (skipOpen ++ (w ++ (skipClose ++ rest))) by simp [List.append_assoc]]
    rw [stripSkipGo_chunk a hlt]
    rw [stripSkipGo_span w hw rest]
    simp only [lettersFree, List.all_append] at *
    rw [ha, ih]
    rfl

/- ---------- SChain closure properties ---------- -/

theorem SChain_prepend (a : List Char) (ha : lettersFree a = true)
    (hlt : ∀ c ∈ a, c ≠ '<') : ∀ (b : List Char), SChain b → SChain (a ++ b) := by
  intro b hb
  induction hb with
  | last a2 ha2 hlt2 =>
    refine SChain.last (a ++ a2) ?_ ?_
    · simp only [lettersFree, List.all_append] at *
      rw [ha, ha2]; rfl
    · intro c hc
      rcases List.mem_append.1 hc with h | h
      · exact hlt c h
      · exact hlt2 c h
  | cons a2 w rest ha2 hlt2 hw hrest ih =>
    rw [show a ++ (a2 ++ skipOpen ++ w ++ skipClose ++ rest) =
        (a ++ a2) ++ skipOpen ++ w ++ skipClose ++ rest by simp [List.append_assoc]]
    refine SChain.cons (a ++ a2) w rest ?_ ?_ hw hrest
    · simp only [lettersFree, List.all_append] at *
      rw [ha, ha2]; rfl
    · intro c hc
      rcases List.mem_append.1 hc with h | h
      · exact hlt c h
      · exact hlt2 c h

theorem SChain_append : ∀ (a : List Char), SChain a → ∀ (b : List Char),
    SChain b → SChain (a ++ b) := by
  intro a ha
  induction ha with
  | last a2 ha2 hlt2 =>
    intro b hb
    exact SChain_prepend a2 ha2 hlt2 b hb
  | cons a2 w rest ha2 hlt2 hw hrest ih =>
    intro b hb
    rw [show a2 ++ skipOpen ++ w ++ skipClose ++ rest ++ b =
        a2 ++ skipOpen ++ w ++ skipClose ++ (rest ++ b) by simp [List.append_assoc]]
    exact SChain.cons a2 w (rest ++ b) ha2 hlt2 hw (ih b hb)

/- ---------- replace_outside_parentheses on the segment shapes ---------- -/

theorem parenScan_pfree :
    ∀ (x : List Char), (∀ c ∈ x, pOK c = true) →
      ∀ (parts : List (Bool × List Char)) (buf r : List Char),
      parenScan parts buf 0 (x ++ r) = parenScan parts (buf ++ x) 0 r := by
  intro x
  induction x with
  | nil => intro _ parts buf r; simp
  | cons c cs ih =>
    intro hx parts buf r
    have hc := hx c (by simp)
    have hc1 : ¬(c = '（') := by
      intro h; rw [h] at hc; exact absurd hc (by decide)
    have hc2 : ¬(c = '）') := by
      intro h; rw [h] at hc; exact absurd hc (by decide)
    rw [List.cons_append, parenScan, if_neg hc1, if_neg hc2]
    rw [ih (fun y hy => hx y (List.mem_cons_of_mem c hy)) parts (buf ++ [c]) r]
    rw [List.append_cons buf c cs]

theorem parenScan_close (parts : List (Bool × List Char)) (t : List Char) :
    parenScan parts [] 0 ('）' :: t) =
      parenScan (parts ++ [(false, ['）'])]) [] 0 t := by
  rw [parenScan]
  rw [if_neg (by decide), if_pos rfl]
  simp

/- ---------- subGuarded over annotated strings ---------- -/

theorem isPrefixOf_head_nonal (abbr : List Char) (hne : abbr ≠ [])
    (hal : ∀ c ∈ abbr, asciiAlnum c = true) (c : Char) (hc : asciiAlnum c = false)
    (X : List Char) : abbr.isPrefixOf (c :: X) = false := by
  cases abbr with
  | nil => cases hne rfl
  | cons a r =>
    simp only [List.isPrefixOf]
    have ha := hal a (by simp)
    have hbe : (a == c) = false := by
      rw [beq_eq_false_iff_ne]
      intro h
      subst h
      rw [ha] at hc
      cases hc
    rw [hbe, Bool.false_and]

theorem isPrefixOf_length_le :
    ∀ (A X : List Char), A.isPrefixOf X = true → A.length ≤ X.length := by
  intro A
  induction A with
  | nil => intro X _; simp
  | cons a r ih =>
    intro X h
    cases X with
    | nil => simp [List.isPrefixOf] at h
    | cons x X2 =>
      simp only [List.isPrefixOf, Bool.and_eq_true] at h
      simp only [List.length_cons]
      exact Nat.succ_le_succ (ih X2 h.2)

theorem isPrefixOf_mem :
    ∀ (A X : List Char), A.isPrefixOf X = true → ∀ c ∈ A, c ∈ X := by
  intro A
  induction A with
  | nil => intro X _ c hc; simp at hc
  | cons a r ih =>
    intro X h c hc
    cases X with
    | nil => simp [List.isPrefixOf] at h
    | cons x X2 =>
      simp only [List.isPrefixOf, Bool.and_eq_true, beq_iff_eq] at h
      rcases List.mem_cons.1 hc with h1 | h1
      · subst h1; rw [h.1]; simp
      · exact List.mem_cons_of_mem x (ih X2 h.2 c h1)

theorem prefix_skip_block (abbr : List Char) (hal : ∀ c ∈ abbr, asciiAlnum c = true)
    (hnp : abbr.isPrefixOf "skip".data = false) (X : List Char) :
    abbr.isPrefixOf ('s' :: 'k' :: 'i' :: 'p' :: '>' :: X) = false := by
  cases hb : abbr.isPrefixOf ('s' :: 'k' :: 'i' :: 'p' :: '>' :: X) with
  | false => rfl
  | true =>
    exfalso
    have hb2 : abbr.isPrefixOf ("skip".data ++ ('>' :: X)) = true := hb
    by_cases hlen : abbr.length ≤ 4
    · have := isPrefixOf_le_of_append abbr "skip".data ('>' :: X) hb2
        (by simpa using hlen)
      rw [this] at hnp
      cases hnp
    · have hb3 : abbr.isPrefixOf ("skip>".data ++ X) = true := hb
      have hpre := append_isPrefixOf_of_le "skip>".data abbr X hb3 (by simp; omega)
      have hgt : '>' ∈ abbr := isPrefixOf_mem "skip>".data abbr hpre '>' (by decide)
      have := hal '>' hgt
      exact absurd this (by decide)

theorem subGuarded_step_nonal (abbr repl : List Char) (hne : abbr ≠ [])
    (hal : ∀ c ∈ abbr, asciiAlnum c = true) (c : Char) (hc : asciiAlnum c = false)
    (prevAl : Bool) (X : List Char) :
    subGuarded abbr repl prevAl (c :: X) = c :: subGuarded abbr repl false X := by
  simp only [subGuarded]
  rw [if_neg (by simp [isPrefixOf_head_nonal abbr hne hal c hc])]
  rw [hc]

theorem subGuarded_alnum_run (abbr repl : List Char) :
    ∀ (w : List Char), (∀ c ∈ w, asciiAlnum c = true) → ∀ (X : List Char),
      subGuarded abbr repl true (w ++ X) = w ++ subGuarded abbr repl true X := by
  intro w
  induction w with
  | nil => intro _ X; simp
  | cons c cs ih =>
    intro hw X
    have hc := hw c (by simp)
    rw [List.cons_append]
    simp only [subGuarded]
    rw [if_neg (by simp)]
    rw [hc]
    rw [ih (fun y hy => hw y (List.mem_cons_of_mem c hy)) X]
    rfl

theorem subGuarded_cons (abbr repl : List Char) (prevAl : Bool) (c : Char)
    (X : List Char) :
    subGuarded abbr repl prevAl (c :: X) =
      if (abbr.isPrefixOf (c :: X) && !prevAl &&
          !(optTest asciiAlnum ((X.drop (abbr.length - 1)).head?))) = true
      then repl ++ subGuarded abbr repl (asciiAlnum (abbr.getLastD c))
        (X.drop (abbr.length - 1))
      else c :: subGuarded abbr repl (asciiAlnum c) X := by
  rw [subGuarded]

theorem subGuarded_step_skip (abbr repl : List Char) (hne : abbr ≠ [])
    (hal : ∀ c ∈ abbr, asciiAlnum c = true)
    (hnp : abbr.isPrefixOf "skip".data = false) (X : List Char) :
    subGuarded abbr repl false ('s' :: 'k' :: 'i' :: 'p' :: '>' :: X) =
      's' :: 'k' :: 'i' :: 'p' :: '>' :: subGuarded abbr repl false X := by
  rw [subGuarded_cons]
  rw [if_neg (by simp [prefix_skip_block abbr hal hnp])]
  rw [show asciiAlnum 's' = true from by decide]
  rw [show ('k' :: 'i' :: 'p' :: '>' :: X) = ['k', 'i', 'p'] ++ ('>' :: X) from rfl]
  rw [subGuarded_alnum_run abbr repl ['k', 'i', 'p'] (by decide) ('>' :: X)]
  rw [subGuarded_step_nonal abbr repl hne hal '>' (by decide) true X]
  rfl

theorem nomatch_at_w :
    ∀ (abbr : List Char), abbr ≠ [] → (∀ c ∈ abbr, asciiAlnum c = true) →
      ∀ (h : Char) (w' : List Char), asciiAlnum h = true →
      (∀ c ∈ w', asciiAlnum c = true) → abbr ≠ h :: w' →
      ∀ (X : List Char), X.head? = some '<' →
      abbr.isPrefixOf (h :: (w' ++ X)) = true →
      optTest asciiAlnum (((w' ++ X).drop (abbr.length - 1)).head?) = true := by
  intro abbr
  induction abbr with
  | nil => intro hne; cases hne rfl
  | cons a r ih =>
    intro _ hal h w' hh hw' hneq X hX hpre
    simp only [List.isPrefixOf, Bool.and_eq_true, beq_iff_eq] at hpre
    cases r with
    | nil =>
      cases w' with
      | nil =>
        exact absurd (by rw [hpre.1] : (a :: [] : List Char) = h :: []) hneq
      | cons d w'' =>
        simp only [List.length_cons, List.length_nil]
        rw [List.cons_append]
        simp [optTest, hw' d (by simp)]
    | cons a2 r2 =>
      cases w' with
      | nil =>
        rcases hXc : X with _ | ⟨x0, X'⟩
        · rw [hXc] at hX; simp at hX
        · rw [hXc] at hX hpre
          simp only [List.head?_cons, Option.some_inj] at hX
          rw [List.nil_append] at hpre
          have h2 := hpre.2
          rw [isPrefixOf_head_nonal (a2 :: r2) (by simp)
            (fun y hy => hal y (List.mem_cons_of_mem a hy)) x0
            (by rw [hX]; decide) X'] at h2
          cases h2
      | cons d w'' =>
        have hres := ih (by simp) (fun y hy => hal y (List.mem_cons_of_mem a hy)) d w''
          (hw' d (by simp)) (fun y hy => hw' y (List.mem_cons_of_mem d hy))
          (by
            intro he
            apply hneq
            rw [hpre.1, he])
          X hX (by simpa using hpre.2)
        have h1 : (a :: a2 :: r2).length - 1 = r2.length + 1 := by simp
        have h2 : (a2 :: r2).length - 1 = r2.length := by simp
        rw [List.cons_append, h1, List.drop_succ_cons]
        rw [h2] at hres
        exact hres

theorem subGuarded_w (abbr repl : List Char) (hne : abbr ≠ [])
    (hal : ∀ c ∈ abbr, asciiAlnum c = true) (w : List Char) (hwne : w ≠ [])
    (hwal : ∀ c ∈ w, asciiAlnum c = true) (hneq : abbr ≠ w) (X : List Char)
    (hX : X.head? = some '<') :
    subGuarded abbr repl false (w ++ X) = w ++ subGuarded abbr repl true X := by
  cases w with
  | nil => cases hwne rfl
  | cons h w' =>
    rw [List.cons_append]
    rw [subGuarded_cons]
    rw [if_neg ?hcond]
    case hcond =>
      intro hcon
      simp only [Bool.and_eq_true, Bool.not_eq_true'] at hcon
      rcases hcon with ⟨⟨hpre, -⟩, hla⟩
      rw [nomatch_at_w abbr hne hal h w' (hwal h (by simp))
        (fun y hy => hwal y (List.mem_cons_of_mem h hy)) hneq X hX hpre] at hla
      cases hla
    rw [hwal h (by simp)]
    rw [subGuarded_alnum_run abbr repl w'
      (fun y hy => hwal y (List.mem_cons_of_mem h hy)) X]
    rfl

theorem subGuarded_block (abbr repl : List Char) (hne : abbr ≠ [])
    (hal : ∀ c ∈ abbr, asciiAlnum c = true)
    (hnp : abbr.isPrefixOf "skip".data = false) (w : List Char) (hwne : w ≠ [])
    (hwal : ∀ c ∈ w, asciiAlnum c = true) (hneq : abbr ≠ w) (s : List Char)
    (prevAl : Bool) :
    subGuarded abbr repl prevAl ('（' :: skipOpen ++ w ++ skipClose ++ '）' :: s) =
      '（' :: skipOpen ++ w ++ skipClose ++ '）' :: subGuarded abbr repl false s := by
  have hsh : ∀ (Z : List Char), '（' :: skipOpen ++ w ++ skipClose ++ '）' :: Z =
      '（' :: '<' :: 's' :: 'k' :: 'i' :: 'p' :: '>' ::
        (w ++ ('<' :: '/' :: 's' :: 'k' :: 'i' :: 'p' :: '>' :: '）' :: Z)) := by
    intro Z
    simp [skipOpen, skipClose, List.append_assoc]
  rw [hsh s, hsh (subGuarded abbr repl false s)]
  rw [subGuarded_step_nonal abbr repl hne hal '（' (by decide) prevAl _]
  rw [subGuarded_step_nonal abbr repl hne hal '<' (by decide) false _]
  rw [subGuarded_step_skip abbr repl hne hal hnp _]
  rw [subGuarded_w abbr repl hne hal w hwne hwal hneq
    ('<' :: '/' :: 's' :: 'k' :: 'i' :: 'p' :: '>' :: '）' :: s) rfl]
  rw [subGuarded_step_nonal abbr repl hne hal '<' (by decide) true _]
  rw [subGuarded_step_nonal abbr repl hne hal '/' (by decide) false _]
  rw [subGuarded_step_skip abbr repl hne hal hnp _]
  rw [subGuarded_step_nonal abbr repl hne hal '）' (by decide) false _]

/- ---------- Rep structural lemmas ---------- -/

theorem Rep_of_pOK (W : List (List Char)) :
    ∀ (t : List Char), (∀ c ∈ t, pOK c = true) → Rep W t := by
  intro t
  induction t with
  | nil => intro _; exact Rep.nil
  | cons c rest ih =>
    intro h
    exact Rep.pchar c rest (h c (by simp)) (ih (fun y hy => h y (List.mem_cons_of_mem c hy)))

theorem Rep_mono (V V' : List (List Char)) (hsub : ∀ w ∈ V, w ∈ V') :
    ∀ (s : List Char), Rep V s → Rep V' s := by
  intro s hs
  induction hs with
  | nil => exact Rep.nil
  | pchar c s hc _ ih => exact Rep.pchar c s hc ih
  | annot w s hw _ ih => exact Rep.annot w s (hsub w hw) ih

theorem Rep_pchars (W : List (List Char)) :
    ∀ (a : List Char), (∀ c ∈ a, pOK c = true) → ∀ (X : List Char), Rep W X →
      Rep W (a ++ X) := by
  intro a
  induction a with
  | nil => intro _ X hX; simpa using hX
  | cons c cs ih =>
    intro h X hX
    rw [List.cons_append]
    exact Rep.pchar c _ (h c (by simp))
      (ih (fun y hy => h y (List.mem_cons_of_mem c hy)) X hX)

theorem Rep_drop (V : List (List Char)) :
    ∀ (abbr : List Char), (∀ c ∈ abbr, asciiAlnum c = true) →
      ∀ (s : List Char), Rep V s → abbr.isPrefixOf s = true →
      Rep V (s.drop abbr.length) := by
  intro abbr
  induction abbr with
  | nil => intro _ s hs _; simpa using hs
  | cons a r ih =>
    intro hal s hs hpre
    cases hs with
    | nil => simp [List.isPrefixOf] at hpre
    | pchar c s' hc hs' =>
      simp only [List.isPrefixOf, Bool.and_eq_true, beq_iff_eq] at hpre
      simp only [List.length_cons, List.drop_succ_cons]
      exact ih (fun y hy => hal y (List.mem_cons_of_mem a hy)) s' hs' hpre.2
    | annot w s' hw hs' =>
      exfalso
      have hsh : '（' :: skipOpen ++ w ++ skipClose ++ '）' :: s' =
          '（' :: (skipOpen ++ w ++ skipClose ++ '）' :: s') := by
        simp [List.append_assoc]
      rw [hsh] at hpre
      simp only [List.isPrefixOf, Bool.and_eq_true, beq_iff_eq] at hpre
      have := hal a (by simp)
      rw [hpre.1] at this
      exact absurd this (by decide)

/- ---------- one abbreviation pass preserves the annotation shape ---------- -/

theorem subGuarded_Rep (V : List (List Char)) (abbr reading : List Char)
    (hne : abbr ≠ []) (hal : ∀ c ∈ abbr, asciiAlnum c = true)
    (hnp : abbr.isPrefixOf "skip".data = false)
    (hread : ∀ c ∈ reading, pOK c = true)
    (hV : ∀ w ∈ V, w ≠ [] ∧ (∀ c ∈ w, asciiAlnum c = true) ∧ abbr ≠ w) :
    ∀ (n : Nat) (s : List Char), s.length ≤ n → Rep V s → ∀ (prevAl : Bool),
      Rep (V ++ [abbr])
        (subGuarded abbr (reading ++ '（' :: skipOpen ++ abbr ++ skipClose ++ ['）'])
          prevAl s) := by
  intro n
  induction n with
  | zero =>
    intro s hlen _ prevAl
    have : s = [] := List.length_eq_zero.1 (by omega)
    subst this
    simpa [subGuarded] using Rep.nil
  | succ n ih =>
    intro s hlen hrep prevAl
    cases hrep with
    | nil => simpa [subGuarded] using Rep.nil
    | pchar c s' hc hs' =>
      rw [subGuarded_cons]
      by_cases hcond : (abbr.isPrefixOf (c :: s') && !prevAl &&
          !(optTest asciiAlnum ((s'.drop (abbr.length - 1)).head?))) = true
      · rw [if_pos hcond]
        simp only [Bool.and_eq_true] at hcond
        have hpre : abbr.isPrefixOf (c :: s') = true := hcond.1.1
        have hdrop : s'.drop (abbr.length - 1) = (c :: s').drop abbr.length := by
          cases abbr with
          | nil => cases hne rfl
          | cons a r => simp
        have hnext : Rep V ((c :: s').drop abbr.length) :=
          Rep_drop V abbr hal (c :: s') (Rep.pchar c s' hc hs') hpre
        have hlen2 : ((c :: s').drop abbr.length).length ≤ n := by
          simp only [List.length_drop, List.length_cons]
          simp only [List.length_cons] at hlen
          have : 1 ≤ abbr.length := by
            cases abbr with
            | nil => cases hne rfl
            | cons a r => simp
          omega
        have hrec := ih ((c :: s').drop abbr.length) hlen2 hnext
          (asciiAlnum (abbr.getLastD c))
        rw [hdrop]
        have hann := Rep.annot abbr
          (subGuarded abbr (reading ++ '（' :: skipOpen ++ abbr ++ skipClose ++ ['）'])
            (asciiAlnum (abbr.getLastD c)) ((c :: s').drop abbr.length))
          (List.mem_append.2 (Or.inr (by simp))) hrec
        have hfull := Rep_pchars (V ++ [abbr]) reading hread _ hann
        simpa [List.append_assoc] using hfull
      · rw [if_neg hcond]
        refine Rep.pchar c _ hc ?_
        refine ih s' ?_ hs' (asciiAlnum c)
        simp only [List.length_cons] at hlen
        omega
    | annot w s' hw hs' =>
      obtain ⟨hwne, hwal, hneq⟩ := hV w hw
      rw [subGuarded_block abbr _ hne hal hnp w hwne hwal hneq s' prevAl]
      refine Rep.annot w _ (List.mem_append.2 (Or.inl hw)) ?_
      refine ih s' ?_ hs' false
      have : ('（' :: skipOpen ++ w ++ skipClose ++ '）' :: s').length =
          15 + w.length + s'.length := by
        simp [skipOpen, skipClose, List.length_append, List.length_cons]
        omega
      rw [this] at hlen
      omega

/- ---------- folding the abbreviation table ---------- -/

theorem fold_Rep :
    ∀ (entries : List (List Char × List Char)) (V : List (List Char)) (s : List Char),
      (∀ w ∈ V, w ≠ [] ∧ (∀ c ∈ w, asciiAlnum c = true)) →
      (∀ p ∈ entries, p.1 ≠ [] ∧ (∀ c ∈ p.1, asciiAlnum c = true) ∧
        p.1.isPrefixOf "skip".data = false ∧ (∀ c ∈ p.2, pOK c = true)) →
      (∀ p ∈ entries, ∀ w ∈ V, p.1 ≠ w) →
      List.Pairwise (fun p q => p.1 ≠ q.1) entries →
      Rep V s →
      ∃ V', (∀ w ∈ V', w ≠ [] ∧ (∀ c ∈ w, asciiAlnum c = true)) ∧
        Rep V' (entries.foldl
          (fun acc p =>
            subGuarded p.1 (p.2 ++ '（' :: skipOpen ++ p.1 ++ skipClose ++ ['）'])
              false acc) s) := by
  intro entries
  induction entries with
  | nil =>
    intro V s hV _ _ _ hs
    exact ⟨V, hV, by simpa using hs⟩
  | cons p rest ih =>
    intro V s hV hEnt hcross hpair hs
    obtain ⟨hpne, hpal, hpskip, hpread⟩ := hEnt p (by simp)
    have hstep := subGuarded_Rep V p.1 p.2 hpne hpal hpskip hpread
      (fun w hw => ⟨(hV w hw).1, (hV w hw).2, hcross p (by simp) w hw⟩)
      s.length s le_rfl hs false
    rw [List.foldl_cons]
    refine ih (V ++ [p.1]) _ ?_ ?_ ?_ ?_ hstep
    · intro w hw
      rcases List.mem_append.1 hw with h | h
      · exact hV w h
      · simp only [List.mem_singleton] at h
        subst h
        exact ⟨hpne, hpal⟩
    · intro q hq
      exact hEnt q (List.mem_cons_of_mem p hq)
    · intro q hq w hw
      rcases List.mem_append.1 hw with h | h
      · exact hcross q (List.mem_cons_of_mem p hq) w h
      · simp only [List.mem_singleton] at h
        subst h
        exact Ne.symm ((List.pairwise_cons.1 hpair).1 q hq)
    · exact (List.pairwise_cons.1 hpair).2

/- ---------- replace_outside_skip over the annotation shape ---------- -/

theorem rosSpan_w (f : List Char → List Char) (before : List Char) :
    ∀ (w : List Char), (∀ c ∈ w, c ≠ '<') → ∀ (content Z : List Char),
      rosSpan f before content (w ++ Z) = rosSpan f before (w.reverse ++ content) Z := by
  intro w
  induction w with
  | nil => intro _ content Z; simp
  | cons c cs ih =>
    intro hw content Z
    have hc : c ≠ '<' := hw c (by simp)
    rw [List.cons_append, rosSpan]
    rw [if_neg (by simp [skipClose_head c hc])]
    rw [ih (fun y hy => hw y (List.mem_cons_of_mem c hy)) (c :: content) Z]
    simp

theorem rosSpan_close (f : List Char → List Char) (before content Z : List Char) :
    rosSpan f before content (skipClose ++ Z) =
      f before ++ skipOpen ++ content.reverse ++ skipClose ++ rosGo f [] Z := by
  rw [show skipClose ++ Z = '<' :: ("/skip>".data ++ Z) from rfl]
  rw [rosSpan]
  rw [show '<' :: ("/skip>".data ++ Z) = skipClose ++ Z from rfl]
  rw [if_pos (isPrefixOf_self_append skipClose Z)]
  rw [show (skipClose ++ Z).drop 7 = Z from List.drop_left skipClose Z]

theorem rosGo_step (f : List Char → List Char) (seg : List Char) (c : Char)
    (hc : c ≠ '<') (X : List Char) :
    rosGo f seg (c :: X) = rosGo f (c :: seg) X := by
  rw [rosGo]
  rw [if_neg (by simp [skipOpen_head c hc])]

theorem rosGo_span (f : List Char → List Char) (seg : List Char) (w : List Char)
    (hw : ∀ c ∈ w, c ≠ '<') (Z : List Char) :
    rosGo f seg (skipOpen ++ (w ++ (skipClose ++ Z))) =
      f seg.reverse ++ skipOpen ++ w ++ skipClose ++ rosGo f [] Z := by
  rw [show skipOpen ++ (w ++ (skipClose ++ Z)) =
      '<' :: ("skip>".data ++ (w ++ (skipClose ++ Z))) from rfl]
  rw [rosGo]
  rw [if_pos ?hcond4]
  case hcond4 =>
    rw [show '<' :: ("skip>".data ++ (w ++ (skipClose ++ Z))) =
        skipOpen ++ (w ++ (skipClose ++ Z)) from rfl]
    rw [isPrefixOf_self_append]
    rw [show (skipOpen ++ (w ++ (skipClose ++ Z))).drop 6 = w ++ (skipClose ++ Z)
      from List.drop_left skipOpen _]
    rw [containsSub_append_mid]
    rfl
  rw [show ('<' :: ("skip>".data ++ (w ++ (skipClose ++ Z)))).drop 6 =
      w ++ (skipClose ++ Z) from List.drop_left skipOpen _]
  rw [rosSpan_w f seg.reverse w hw [] (skipClose ++ Z)]
  rw [rosSpan_close]
  simp

theorem pOK_ne_lt (c : Char) (h : pOK c = true) : c ≠ '<' := by
  intro he
  rw [he] at h
  exact absurd h (by decide)

theorem alnum_ne_lt (c : Char) (h : asciiAlnum c = true) : c ≠ '<' := by
  intro he
  rw [he] at h
  exact absurd h (by decide)


/-- C1 (code bug): the pattern of ENGLISH_TOKEN_RE
(paper_script_generator.py line 32) is not a valid regular expression.
Its second character set contains an escaped backslash followed by -.,
a character range running down from backslash (0x5C) to dot (0x2E), so
re.compile raises re.error "bad character range" when the module is
imported: fallback_wrap_english can never run, and the claimed
guarantee (no bare Latin run outside a <skip> annotation after the
fallback) is never delivered by the program. -/
theorem claim_C1_code_bug :
    ENGLISH_TOKEN_RE_SOURCE = "[A-Za-z][".data ++ "A-Za-z0-9+\\\\-./]*".data ∧
    classParse "A-Za-z0-9+\\\\-./]*".data = .error "bad character range".data :=
  ⟨rfl, rfl⟩

end S2P
